import Mathlib

/-!
# Difference-engine polynomial sampler

A shallow embedding of `iterative-polynomial-sampler.cc`: the direct polynomial
evaluator `Polynomial<N>::operator()` and the difference-engine sampler
`IterativePolynomialSampler<N>` (constructor and `Next()`).

Conventions of the embedding

* `std::array<T, N + 1>` is a `List T`; every `a[i]` of the source is a
  bounds-checked access, so a computation that would leave the array yields
  `none`.  A result `some _` therefore also says that no access was out of range.
* A `for` loop over an `int` counter is a monadic left fold over the list of
  the counter values, in ascending order.
* The program is generic in its number types, as the templates of the source are: the
  definitions ask only for the operations the source uses (`+`, `-`, `*`, `std::pow` as
  `x ^ i`, the conversion of an `int`).  Exact arithmetic is a commutative ring (`ℚ` in
  the concrete runs); `double` and `float` are the rounding types `Fl 53` and `Fl 24`.
* The template parameter `N` is an explicit natural number.
-/

namespace DifferenceEngine

/-! ## The program -/

/-- Bounds-checked assignment `a[i] = v` into a fixed-size array. -/
def store {α : Type} (a : List α) (i : Nat) (v : α) : Option (List α) :=
  if i < a.length then some (a.set i v) else none

/-- Class `Polynomial<N, poly_real_t>`: the coefficient array `coefficients_`,
index `i` holding the coefficient of `x^i`. -/
structure Polynomial (N : Nat) (R : Type) where
  /-- Member `const std::array<poly_real_t, N + 1> coefficients_`. -/
  coefficients_ : List R

/-- Method `Polynomial::operator()`:
`result = coefficients_[0]; for (i = 1; i < N + 1; ++i) result += coefficients_[i] * pow (x, i);` -/
def Polynomial.evaluate {N : Nat} {R : Type} [Add R] [Mul R] [Pow R ℕ] (p : Polynomial N R)
    (x : R) : Option R := do
  let result ← p.coefficients_[0]?
  (List.range' 1 N).foldlM
    (fun result i => do
      let ci ← p.coefficients_[i]?
      pure (result + ci * x ^ i))
    result

/-- Class `IterativePolynomialSampler<N, register_number_t>`: the register array. -/
structure IterativePolynomialSampler (N : Nat) (Rg : Type) where
  /-- Member `std::array<register_number_t, N + 1> registers_`. -/
  registers_ : List Rg
deriving DecidableEq

/-- First loop of the constructor:
`for (i = 0; i < N + 1; ++i) hi_res_registers[i] = p (x + (i - N - 1) * dx);`
where `i - N - 1` is computed on (signed) integers. -/
def fillLoop {N : Nat} {P : Type} [Add P] [Mul P] [Pow P ℕ] [IntCast P] (p : Polynomial N P)
    (x dx : P) (hi_res_registers : List P) : Option (List P) :=
  (List.range (N + 1)).foldlM
    (fun (hi : List P) (i : ℕ) => do
      let v ← p.evaluate (x + (((i : ℤ) - (N : ℤ) - 1 : ℤ) : P) * dx)
      store hi i v)
    hi_res_registers

/-- Inner loop of the difference passes, for a given outer counter `i`:
`for (j = 0; j < N - i; ++j) hi_res_registers[j] = hi_res_registers[j + 1] - hi_res_registers[j];` -/
def differencePass {P : Type} [Sub P] (N i : Nat) (hi_res_registers : List P) :
    Option (List P) :=
  (List.range (N - i)).foldlM
    (fun hi j => do
      let a ← hi[j + 1]?
      let b ← hi[j]?
      store hi j (a - b))
    hi_res_registers

/-- Second loop nest of the constructor: `for (i = 0; i < N; ++i)` around `differencePass`. -/
def differenceLoop {P : Type} [Sub P] (N : Nat) (hi_res_registers : List P) :
    Option (List P) :=
  (List.range N).foldlM (fun hi i => differencePass N i hi) hi_res_registers

/-- Third loop of the constructor:
`for (i = 0; i <= N; ++i) registers_[i] = hi_res_registers[i];`
the assignment converting `poly_real_t` to `register_number_t` through `narrow`. -/
def copyLoop {P Rg : Type} (narrow : P → Rg) (N : Nat) (hi_res_registers : List P)
    (registers_ : List Rg) : Option (List Rg) :=
  (List.range (N + 1)).foldlM
    (fun regs i => do
      let v ← hi_res_registers[i]?
      store regs i (narrow v))
    registers_

/-- Constructor `IterativePolynomialSampler (p, x, dx)`.  The two arrays start out
uninitialised in the source; every slot is written before it is read, and the
embedding starts them zero-filled. -/
def IterativePolynomialSampler.init {N : Nat} {P Rg : Type} [Add P] [Sub P] [Mul P] [Pow P ℕ]
    [IntCast P] [Zero P] [Zero Rg] (narrow : P → Rg) (p : Polynomial N P) (x dx : P) :
    Option (IterativePolynomialSampler N Rg) := do
  let hi0 ← fillLoop p x dx (List.replicate (N + 1) 0)
  let hi1 ← differenceLoop N hi0
  let regs ← copyLoop narrow N hi1 (List.replicate (N + 1) 0)
  pure ⟨regs⟩

/-- Method `Next()`:
`for (i = 0; i < N; ++i) registers_[i + 1] += registers_[i]; return registers_[N];`
The result is the returned sample together with the sampler after the call. -/
def IterativePolynomialSampler.Next {N : Nat} {Rg : Type} [Add Rg]
    (s : IterativePolynomialSampler N Rg) : Option (Rg × IterativePolynomialSampler N Rg) := do
  let regs ← (List.range N).foldlM
    (fun regs i => do
      let a ← regs[i + 1]?
      let b ← regs[i]?
      store regs (i + 1) (a + b))
    s.registers_
  let sample ← regs[N]?
  pure (sample, ⟨regs⟩)

/-- Calling `Next()` `m` times in a row, as the sampling loop of `main` does: the
samples returned, in call order, and the sampler after the last call. -/
def IterativePolynomialSampler.nextCalls {N : Nat} {Rg : Type} [Add Rg] :
    Nat → IterativePolynomialSampler N Rg → Option (List Rg × IterativePolynomialSampler N Rg)
  | 0, s => some ([], s)
  | m + 1, s => do
    let (v, s1) ← s.Next
    let (vs, s2) ← IterativePolynomialSampler.nextCalls m s1
    pure (v :: vs, s2)

/-- Constant `kCoeffcients` of `main` (`N = 3`): `-7, 10, -0.8, 0.01`, as exact rationals. -/
def kCoeffcients : List ℚ := [-7, 10, -8 / 10, 1 / 100]

/-- Constant `kX` of `main`. -/
def kX : ℚ := 3

/-- Constant `kDx` of `main`. -/
def kDx : ℚ := 1 / 10

/-- The polynomial `p` of `main`, of degree `N = 3`. -/
def mainPoly : Polynomial 3 ℚ := ⟨kCoeffcients⟩

/-! ## Binary floating point

The source's number types are `double` (setup numbers) and, as shipped, `float`
(registers).  `Fl p` models the finite binary floating-point numbers with `p` significant
bits (`p = 53` for `double`, `p = 24` for `float`) as integer multiples of `2 ^ (-1074)`,
the spacing of the smallest `double`s; every operation is the exact result rounded to the
nearest such number, ties to even.  Overflow to infinity, NaN and the sign of zero are
left out, and so is the narrower exponent range of `float`; `std::pow` is taken to be
correctly rounded. -/

/-- One step of the search for the leading bit: raise the candidate exponent `k` by `b`
when `n` still has a bit at position `k + b` or above, that is when `2 ^ (k + b) ≤ n`. -/
def log2Step (n k b : ℕ) : ℕ :=
  bif Nat.beq (Nat.shiftRight n (Nat.add k b)) 0 then k else Nat.add k b

/-- Number of binary digits of `n` (`0` for `n = 0`): below `2 ^ 8192` the exponent of the
leading bit is built from its binary digits, highest first. -/
def bitLength (n : ℕ) : ℕ :=
  if n = 0 then 0
  else if n < 2 ^ 8192 then
    log2Step n (log2Step n (log2Step n (log2Step n (log2Step n (log2Step n (log2Step n
      (log2Step n (log2Step n (log2Step n (log2Step n (log2Step n (log2Step n
        0 4096) 2048) 1024) 512) 256) 128) 64) 32) 16) 8) 4) 2) 1 + 1
  else Nat.log2 n + 1

/-- Nearest integer to `a / d`, a tie going to the even neighbour. -/
def divRoundEven (a d : ℕ) : ℕ :=
  if 2 * (a % d) < d then a / d
  else if d < 2 * (a % d) then a / d + 1
  else if (a / d) % 2 = 0 then a / d
  else a / d + 1

/-- Nearest integer with at most `p` significant bits to `a / d`, ties to even. -/
def roundMagnitude (p a d : ℕ) : ℕ :=
  divRoundEven a (d * 2 ^ (bitLength (a / d) - p)) * 2 ^ (bitLength (a / d) - p)

/-- Signed form of `roundMagnitude`: the rounding of `z / d`. -/
def roundQuotient (p : ℕ) (z : ℤ) (d : ℕ) : ℤ :=
  if 0 ≤ z then (roundMagnitude p z.natAbs d : ℤ) else -(roundMagnitude p z.natAbs d : ℤ)

/-- The number of grid steps in one unit: values are counted in multiples of `2 ^ (-1074)`. -/
def gridScale : ℕ := 2 ^ 1074

/-- A finite floating-point number with `p` significant bits, of value `grid * 2 ^ (-1074)`. -/
structure Fl (p : ℕ) where
  /-- The value in units of `2 ^ (-1074)`. -/
  grid : ℤ
deriving DecidableEq

/-- The rational value of a floating-point number. -/
def Fl.val {p : ℕ} (a : Fl p) : ℚ := (a.grid : ℚ) / (gridScale : ℚ)

/-- The floating-point number nearest to the rational `q`: a decimal literal of the source. -/
def Fl.ofRat (p : ℕ) (q : ℚ) : Fl p := ⟨roundQuotient p (q.num * gridScale) q.den⟩

/-- Conversion between floating-point formats, the narrowing `double` to `float` included. -/
def Fl.convert {p q : ℕ} (a : Fl p) : Fl q := ⟨roundQuotient q a.grid 1⟩

instance Fl.instAdd (p : ℕ) : Add (Fl p) := ⟨fun a b => ⟨roundQuotient p (a.grid + b.grid) 1⟩⟩

instance Fl.instSub (p : ℕ) : Sub (Fl p) := ⟨fun a b => ⟨roundQuotient p (a.grid - b.grid) 1⟩⟩

instance Fl.instMul (p : ℕ) : Mul (Fl p) :=
  ⟨fun a b => ⟨roundQuotient p (a.grid * b.grid) gridScale⟩⟩

instance Fl.instPow (p : ℕ) : Pow (Fl p) ℕ :=
  ⟨fun a n => ⟨roundQuotient p (a.grid ^ n * gridScale) (gridScale ^ n)⟩⟩

instance Fl.instIntCast (p : ℕ) : IntCast (Fl p) := ⟨fun z => ⟨roundQuotient p (z * gridScale) 1⟩⟩

instance Fl.instZero (p : ℕ) : Zero (Fl p) := ⟨⟨0⟩⟩

/-- Constant `kCoeffcients` of `main` as the `double`s the literals denote. -/
def kCoeffcientsDouble : List (Fl 53) :=
  [Fl.ofRat 53 (-7), Fl.ofRat 53 10, Fl.ofRat 53 (-8 / 10), Fl.ofRat 53 (1 / 100)]

/-- Constant `kX` of `main` as a `double`. -/
def kXDouble : Fl 53 := Fl.ofRat 53 3

/-- Constant `kDx` of `main` as a `double`. -/
def kDxDouble : Fl 53 := Fl.ofRat 53 (1 / 10)

/-- The polynomial `p` of `main` over `double`. -/
def mainPolyDouble : Polynomial 3 (Fl 53) := ⟨kCoeffcientsDouble⟩

/-- One pass of the sampling loop of `main`:
`x = kX + i * kDx; iterative_result = s.Next (); actual_result = p (x);`
giving the pair `(iterative_result, actual_result)` and the sampler after the call. -/
def mainLoopBody {N : ℕ} {P Rg : Type} [Add P] [Mul P] [Pow P ℕ] [IntCast P] [Add Rg]
    (p : Polynomial N P) (kX kDx : P) (s : IterativePolynomialSampler N Rg) (i : ℕ) :
    Option ((Rg × P) × IterativePolynomialSampler N Rg) := do
  let x := kX + ((i : ℤ) : P) * kDx
  let (iterative_result, s1) ← s.Next
  let actual_result ← p.evaluate x
  pure ((iterative_result, actual_result), s1)

/-- The sampling loop of `main`, `for (i = i0; i < i0 + count; ++i)`: the pairs
`(iterative_result, actual_result)` in order and the sampler after the last pass. -/
def mainLoop {N : ℕ} {P Rg : Type} [Add P] [Mul P] [Pow P ℕ] [IntCast P] [Add Rg]
    (p : Polynomial N P) (kX kDx : P) :
    ℕ → ℕ → IterativePolynomialSampler N Rg →
      Option (List (Rg × P) × IterativePolynomialSampler N Rg)
  | 0, _, s => some ([], s)
  | count + 1, i, s => do
    let (row, s1) ← mainLoopBody p kX kDx s i
    let (rows, s2) ← mainLoop p kX kDx count (i + 1) s1
    pure (row :: rows, s2)

/-- The drift test on one pair: the relative error `|iterative - actual| / |actual|` is
under `0.01` percent, that is `10000 * |iterative - actual| < |actual|`. -/
def withinDrift (row : Fl 53 × Fl 53) : Bool :=
  decide (10000 * (row.1.grid - row.2.grid).natAbs < row.2.grid.natAbs)

/-- The sampling loop of `main` run as a test: `count` passes from counter `i`, each of
which has to succeed and to pass `withinDrift`; the result is the sampler after the last
pass. -/
def driftRun {N : ℕ} (p : Polynomial N (Fl 53)) (kX kDx : Fl 53) :
    ℕ → ℕ → IterativePolynomialSampler N (Fl 53) → Option (IterativePolynomialSampler N (Fl 53))
  | 0, _, s => some s
  | count + 1, i, s =>
    match mainLoopBody p kX kDx s i with
    | none => none
    | some (row, s1) => if withinDrift row then driftRun p kX kDx count (i + 1) s1 else none

/-- The registers of the `double` sampler of `main` after `100 * j` passes of the sampling
loop, `j = 0 .. 10` (checkpoints of the run, each confirmed by evaluation below). -/
def driftCheckpoint : ℕ → IterativePolynomialSampler 3 (Fl 53)
  | 0 => ⟨[⟨33776997203 * 2 ^ 1025⟩, ⟨-(8061443332995 * 2 ^ 1025)⟩,
      ⟨159981932513035 * 2 ^ 1026⟩, ⟨1091833694098775 * 2 ^ 1028⟩]⟩
  | 1 => ⟨[⟨33776997203 * 2 ^ 1025⟩, ⟨-(4683743612695 * 2 ^ 1025)⟩,
      ⟨-(39450829049785 * 2 ^ 1028)⟩, ⟨45470919090059 * 2 ^ 1032⟩]⟩
  | 2 => ⟨[⟨33776997203 * 2 ^ 1025⟩, ⟨-(1306043892395 * 2 ^ 1025)⟩,
      ⟨-(306703578896315 * 2 ^ 1026)⟩, ⟨-(21286025596023 * 2 ^ 1036)⟩]⟩
  | 3 => ⟨[⟨33776997203 * 2 ^ 1025⟩, ⟨2071655827905 * 2 ^ 1025⟩,
      ⟨-(143359427789245 * 2 ^ 1027)⟩, ⟨-(6608156714797359 * 2 ^ 1029)⟩]⟩
  | 4 => ⟨[⟨33776997203 * 2 ^ 1025⟩, ⟨5449355548205 * 2 ^ 1025⟩,
      ⟨-(97849146245665 * 2 ^ 1026)⟩, ⟨-(4587903318805635 * 2 ^ 1030)⟩]⟩
  | 5 => ⟨[⟨33776997203 * 2 ^ 1025⟩, ⟨8827055268505 * 2 ^ 1025⟩,
      ⟨16244096818885 * 2 ^ 1030⟩, ⟨-(8316498719545185 * 2 ^ 1029)⟩]⟩
  | 6 => ⟨[⟨33776997203 * 2 ^ 1025⟩, ⟨12204754988805 * 2 ^ 1025⟩,
      ⟨786545230464985 * 2 ^ 1026⟩, ⟨-(3838341270823201 * 2 ^ 1028)⟩]⟩
  | 7 => ⟨[⟨33776997203 * 2 ^ 1025⟩, ⟨15582454709105 * 2 ^ 1025⟩,
      ⟨741034948921405 * 2 ^ 1027⟩, ⟨6063619969988489 * 2 ^ 1030⟩]⟩
  | 8 => ⟨[⟨33776997203 * 2 ^ 1025⟩, ⟨18960154429405 * 2 ^ 1025⟩,
      ⟨2346479551235635 * 2 ^ 1026⟩, ⟨8983448832952017 * 2 ^ 1031⟩]⟩
  | 9 => ⟨[⟨33776997203 * 2 ^ 1025⟩, ⟨22337854149705 * 2 ^ 1025⟩,
      ⟨844943547660865 * 2 ^ 1028⟩, ⟨8951444733158645 * 2 ^ 1032⟩]⟩
  | 10 => ⟨[⟨33776997203 * 2 ^ 1025⟩, ⟨25715553870005 * 2 ^ 1025⟩,
      ⟨2290976908033143 * 2 ^ 1027⟩, ⟨7579474366596735 * 2 ^ 1033⟩]⟩
  | _ => ⟨[]⟩

/-! ## Notions of the specification -/

/-- The reference sum `c[0] + Σ_{i = 1..N} c[i] * x^i`, reading a missing
coefficient as `0`. -/
def referenceSum {R : Type} [CommRing R] (N : Nat) (c : List R) (x : R) : R :=
  c.getD 0 0 + ∑ i in Finset.Icc 1 N, c.getD i 0 * x ^ i

/-- Iterated forward difference of a sequence: `fdiff f 0 = f` and
`fdiff f (o + 1) k = fdiff f o (k + 1) - fdiff f o k`. -/
def fdiff {R : Type} [Sub R] (f : ℕ → R) : ℕ → ℕ → R
  | 0, k => f k
  | o + 1, k => fdiff f o (k + 1) - fdiff f o k

/-! ## Notions used in the proofs -/

/-- The array of `N + 1` slots whose slot `k` holds `g k`. -/
def table {α : Type} (N : Nat) (g : ℕ → α) : List α :=
  (List.range (N + 1)).map g

/-- Running sums of a register file: `psum r k` is `r k + (r (k-1) + (... + r 0))`. -/
def psum {Rg : Type} [Add Rg] (r : ℕ → Rg) : ℕ → Rg
  | 0 => r 0
  | k + 1 => r (k + 1) + psum r k

/-- The samples the constructor starts from: `f i = p (x + (i - N - 1) * dx)`, with `p`
the reference sum over the coefficients `cf`. -/
def startValue {R : Type} [CommRing R] (N : ℕ) (cf : List R) (x dx : R) (i : ℕ) : R :=
  referenceSum N cf (x + (((i : ℤ) - (N : ℤ) - 1 : ℤ) : R) * dx)

/-- Order of the difference held in slot `k` while pass `i` of the difference loop has
done `j` of its steps. -/
def passOrder (N i j k : ℕ) : ℕ := min (N - k) (if k < j then i + 1 else i)

/-- The window of the data-model invariant after `m` calls: entry `t` (for `t = 0 .. N + 1`)
is the reference value at `x + (m - N - 1 + t) * dx`. -/
def windowValue {R : Type} [CommRing R] (N : ℕ) (cf : List R) (x dx : R) (m t : ℕ) : R :=
  referenceSum N cf (x + (((m : ℤ) - (N : ℤ) - 1 + (t : ℤ) : ℤ) : R) * dx)

/-- The data-model invariant in the spec's wording: after construction and `m` calls of
`Next()`, every register `k ≤ N` holds a finite difference of order `k` taken at some
position `t` inside the window of `N + 2` points (`t + k ≤ N + 1`). -/
def registerHoldsOrderOfItsIndex {R : Type} [CommRing R] (N : ℕ) (p : Polynomial N R)
    (x dx : R) (m : ℕ) : Prop :=
  ∃ samples s,
    (IterativePolynomialSampler.init id p x dx).bind (IterativePolynomialSampler.nextCalls m)
      = some (samples, s)
    ∧ ∀ k, k ≤ N → ∃ t, t + k ≤ N + 1
        ∧ s.registers_[k]? = some (fdiff (windowValue N p.coefficients_ x dx m) k t)

/-- Coefficient-wise (or register-wise) linear combination `a * u + b * v` of two arrays. -/
def combine {R : Type} [CommRing R] (a b : R) (u v : List R) : List R :=
  List.zipWith (fun ui vi => a * ui + b * vi) u v

/-- The initial fill in the wording of the constructor's comment: before the difference
passes, entry `i` of the high-resolution array is `p (x - N - 1 + i * dx)`, for `i = 0 .. N`. -/
def filledAsCommented {R : Type} [CommRing R] (N : ℕ) (p : Polynomial N R) (x dx : R) : Prop :=
  ∃ hi, fillLoop p x dx (List.replicate (N + 1) 0) = some hi
    ∧ ∀ i : ℕ, i ≤ N → hi[i]? = p.evaluate (x - (N : R) - 1 + (i : R) * dx)

/-- The sum `r 0 + r 1 + ... + r k` taken left to right in the addition of the register
type. -/
def sumUpTo {Rg : Type} [Add Rg] (r : ℕ → Rg) : ℕ → Rg
  | 0 => r 0
  | k + 1 => sumUpTo r k + r (k + 1)

theorem foldlM_trace {σ : Type} (body : σ → ℕ → Option σ) (F : ℕ → σ) (s n : ℕ)
    (h : ∀ k, k < n → body (F k) (s + k) = some (F (k + 1))) :
    (List.range' s n).foldlM body (F 0) = some (F n) := by
  induction n with
  | zero => rfl
  | succ n ih =>
    rw [List.range'_1_concat, List.foldlM_append, ih (fun k hk => h k (Nat.lt_succ_of_lt hk))]
    simp [h n (Nat.lt_succ_self n)]

theorem foldlM_range_trace {σ : Type} (body : σ → ℕ → Option σ) (F : ℕ → σ) (n : ℕ)
    (h : ∀ k, k < n → body (F k) k = some (F (k + 1))) :
    (List.range n).foldlM body (F 0) = some (F n) := by
  rw [List.range_eq_range']
  exact foldlM_trace body F 0 n (fun k hk => by simpa using h k hk)

theorem table_length {α : Type} (N : ℕ) (g : ℕ → α) : (table N g).length = N + 1 := by
  simp [table]

theorem table_get {α : Type} (N : ℕ) (g : ℕ → α) (k : ℕ) (hk : k ≤ N) :
    (table N g)[k]? = some (g k) := by
  have : k < N + 1 := Nat.lt_succ_of_le hk
  simp [table, List.getElem?_map, List.getElem?_range this]

theorem table_congr {α : Type} (N : ℕ) (g g' : ℕ → α) (h : ∀ k, k ≤ N → g k = g' k) :
    table N g = table N g' := by
  unfold table
  apply List.map_congr_left
  intro k hk
  exact h k (Nat.le_of_lt_succ (List.mem_range.mp hk))

theorem table_store {α : Type} (N : ℕ) (g : ℕ → α) (i : ℕ) (v : α) (hi : i ≤ N) :
    store (table N g) i v = some (table N (Function.update g i v)) := by
  have hlt : i < (table N g).length := by rw [table_length]; omega
  unfold store
  rw [if_pos hlt]
  congr 1
  apply List.ext_getElem?
  intro k
  by_cases hk : k ≤ N
  · rw [table_get N _ k hk, List.getElem?_set]
    by_cases hik : i = k
    · subst hik
      simp [hlt]
    · have hki : k ≠ i := fun h => hik h.symm
      simp [hik, Function.update_noteq hki, table_get N g k hk]
  · have h1 : (table N (Function.update g i v)).length ≤ k := by rw [table_length]; omega
    have h2 : ((table N g).set i v).length ≤ k := by rw [List.length_set, table_length]; omega
    rw [List.getElem?_eq_none h1, List.getElem?_eq_none h2]

theorem eq_table_of_length {α : Type} (N : ℕ) (l : List α) (d : α) (h : l.length = N + 1) :
    l = table N (fun k => l.getD k d) := by
  apply List.ext_getElem?
  intro k
  by_cases hk : k ≤ N
  · rw [table_get N _ k hk]
    have : k < l.length := by omega
    simp [List.getD, List.getElem?_eq_getElem this]
  · have h1 : l.length ≤ k := by omega
    have h2 : (table N (fun k => l.getD k d)).length ≤ k := by rw [table_length]; omega
    rw [List.getElem?_eq_none h1, List.getElem?_eq_none h2]

theorem replicate_eq_table {α : Type} (N : ℕ) (a : α) :
    List.replicate (N + 1) a = table N (fun _ => a) := by
  apply List.ext_getElem?
  intro k
  by_cases hk : k ≤ N
  · rw [table_get N _ k hk]
    simp [List.getElem?_replicate]
    omega
  · have h2 : (table N (fun _ => a)).length ≤ k := by rw [table_length]; omega
    rw [List.getElem?_eq_none h2]
    simp [List.getElem?_replicate]
    omega

theorem getElem?_eq_some_getD {α : Type} (l : List α) (i : ℕ) (d : α) (h : i < l.length) :
    l[i]? = some (l.getD i d) := by
  simp [List.getD, List.getElem?_eq_getElem h]

/-! ## What each loop computes -/

theorem evaluate_eq {R : Type} [CommRing R] (N : ℕ) (cf : List R) (x : R)
    (hc : cf.length = N + 1) :
    Polynomial.evaluate (⟨cf⟩ : Polynomial N R) x = some (referenceSum N cf x) := by
  have h0 : cf[0]? = some (cf.getD 0 0) := getElem?_eq_some_getD cf 0 0 (by omega)
  have key := foldlM_trace
    (fun (result : R) (i : ℕ) => do
      let ci ← cf[i]?
      pure (result + ci * x ^ i))
    (fun k => cf.getD 0 0 + ∑ i in Finset.Icc 1 k, cf.getD i 0 * x ^ i) 1 N
    (by
      intro k hk
      have hget := getElem?_eq_some_getD cf (k + 1) 0 (by omega)
      have hk1 : 1 ≤ k + 1 := by omega
      simp only [add_comm 1 k, hget, Option.bind_eq_bind, Option.some_bind,
        Finset.sum_Icc_succ_top hk1, add_assoc]
      rfl)
  have hz : cf.getD 0 0 + ∑ i in Finset.Icc 1 0, cf.getD i 0 * x ^ i = cf.getD 0 0 := by simp
  simp only [hz] at key
  unfold Polynomial.evaluate
  simp only [h0, Option.bind_eq_bind, Option.some_bind]
  exact key

theorem fillLoop_eq {R : Type} [CommRing R] (N : ℕ) (cf : List R) (x dx : R) (g0 : ℕ → R)
    (hc : cf.length = N + 1) :
    fillLoop (⟨cf⟩ : Polynomial N R) x dx (table N g0) = some (table N (startValue N cf x dx)) := by
  have key := foldlM_range_trace
    (fun (hi : List R) (i : ℕ) => do
      let v ← Polynomial.evaluate (⟨cf⟩ : Polynomial N R)
        (x + (((i : ℤ) - (N : ℤ) - 1 : ℤ) : R) * dx)
      store hi i v)
    (fun i => table N (fun k => if k < i then startValue N cf x dx k else g0 k)) (N + 1)
    (by
      intro i hi
      simp only [evaluate_eq N cf _ hc, Option.bind_eq_bind, Option.some_bind]
      rw [table_store N _ i _ (by omega)]
      congr 1
      apply table_congr
      intro k _
      by_cases hki : k = i
      · subst hki
        simp [startValue]
      · rw [Function.update_noteq hki]
        by_cases h1 : k < i
        · have h2 : k < i + 1 := by omega
          simp [h1, h2]
        · have h2 : ¬ k < i + 1 := by omega
          simp [h1, h2])
  have hstart : table N (fun k => if k < 0 then startValue N cf x dx k else g0 k) = table N g0 :=
    table_congr N _ _ (fun k _ => by simp)
  have hend : table N (fun k => if k < N + 1 then startValue N cf x dx k else g0 k)
      = table N (startValue N cf x dx) :=
    table_congr N _ _ (fun k hk => by
      have : k < N + 1 := by omega
      simp [this])
  simp only [hstart, hend] at key
  exact key

theorem differencePass_eq {R : Type} [Sub R] (N i : ℕ) (f : ℕ → R) (hi : i < N) :
    differencePass N i (table N (fun k => fdiff f (min (N - k) i) k))
      = some (table N (fun k => fdiff f (min (N - k) (i + 1)) k)) := by
  have key := foldlM_range_trace
    (fun (hi : List R) (j : ℕ) => do
      let a ← hi[j + 1]?
      let b ← hi[j]?
      store hi j (a - b))
    (fun j => table N (fun k => fdiff f (passOrder N i j k) k)) (N - i)
    (by
      intro j hj
      simp only [table_get N _ (j + 1) (by omega), table_get N _ j (by omega),
        Option.bind_eq_bind, Option.some_bind]
      rw [table_store N _ j _ (by omega)]
      congr 1
      apply table_congr
      intro k _
      by_cases hkj : k = j
      · subst hkj
        have e1 : passOrder N i k (k + 1) = i := by
          unfold passOrder
          rw [if_neg (by omega)]
          omega
        have e2 : passOrder N i k k = i := by
          unfold passOrder
          rw [if_neg (by omega)]
          omega
        have e3 : passOrder N i (k + 1) k = i + 1 := by
          unfold passOrder
          rw [if_pos (by omega)]
          omega
        simp [e1, e2, e3, fdiff]
      · rw [Function.update_noteq hkj]
        have e : passOrder N i j k = passOrder N i (j + 1) k := by
          unfold passOrder
          by_cases h1 : k < j
          · rw [if_pos h1, if_pos (by omega)]
          · rw [if_neg h1, if_neg (by omega)]
        rw [e])
  have hstart : table N (fun k => fdiff f (passOrder N i 0 k) k)
      = table N (fun k => fdiff f (min (N - k) i) k) :=
    table_congr N _ _ (fun k _ => by simp [passOrder])
  have hend : table N (fun k => fdiff f (passOrder N i (N - i) k) k)
      = table N (fun k => fdiff f (min (N - k) (i + 1)) k) :=
    table_congr N _ _ (fun k hk => by
      have : passOrder N i (N - i) k = min (N - k) (i + 1) := by
        unfold passOrder
        by_cases h1 : k < N - i
        · rw [if_pos h1]
        · rw [if_neg h1]
          omega
      rw [this])
  simp only [hstart, hend] at key
  exact key

theorem differenceLoop_eq {R : Type} [Sub R] (N : ℕ) (f : ℕ → R) :
    differenceLoop N (table N f) = some (table N (fun k => fdiff f (N - k) k)) := by
  have key := foldlM_range_trace (fun (hi : List R) (i : ℕ) => differencePass N i hi)
    (fun i => table N (fun k => fdiff f (min (N - k) i) k)) N
    (fun i hi => differencePass_eq N i f hi)
  have hstart : table N (fun k => fdiff f (min (N - k) 0) k) = table N f :=
    table_congr N _ _ (fun k _ => by simp [fdiff])
  have hend : table N (fun k => fdiff f (min (N - k) N) k)
      = table N (fun k => fdiff f (N - k) k) :=
    table_congr N _ _ (fun k _ => by
      have : min (N - k) N = N - k := by omega
      rw [this])
  simp only [hstart, hend] at key
  exact key

theorem copyLoop_eq {P Rg : Type} (narrow : P → Rg) (N : ℕ) (g : ℕ → P) (r0 : ℕ → Rg) :
    copyLoop narrow N (table N g) (table N r0) = some (table N (fun k => narrow (g k))) := by
  have key := foldlM_range_trace
    (fun (regs : List Rg) (i : ℕ) => do
      let v ← (table N g)[i]?
      store regs i (narrow v))
    (fun i => table N (fun k => if k < i then narrow (g k) else r0 k)) (N + 1)
    (by
      intro i hi
      simp only [table_get N g i (by omega), Option.bind_eq_bind, Option.some_bind]
      rw [table_store N _ i _ (by omega)]
      congr 1
      apply table_congr
      intro k _
      by_cases hki : k = i
      · subst hki
        simp
      · rw [Function.update_noteq hki]
        by_cases h1 : k < i
        · have h2 : k < i + 1 := by omega
          simp [h1, h2]
        · have h2 : ¬ k < i + 1 := by omega
          simp [h1, h2])
  have hstart : table N (fun k => if k < 0 then narrow (g k) else r0 k) = table N r0 :=
    table_congr N _ _ (fun k _ => by simp)
  have hend : table N (fun k => if k < N + 1 then narrow (g k) else r0 k)
      = table N (fun k => narrow (g k)) :=
    table_congr N _ _ (fun k hk => by
      have : k < N + 1 := by omega
      simp [this])
  simp only [hstart, hend] at key
  exact key

theorem init_eq {R : Type} [CommRing R] (N : ℕ) (cf : List R) (x dx : R)
    (hc : cf.length = N + 1) :
    IterativePolynomialSampler.init id (⟨cf⟩ : Polynomial N R) x dx
      = some ⟨table N (fun k => fdiff (startValue N cf x dx) (N - k) k)⟩ := by
  unfold IterativePolynomialSampler.init
  simp only [replicate_eq_table, fillLoop_eq N cf x dx _ hc, differenceLoop_eq, copyLoop_eq,
    Option.bind_eq_bind, Option.some_bind, id]
  rfl

theorem next_eq {Rg : Type} [Add Rg] (N : ℕ) (r : ℕ → Rg) :
    IterativePolynomialSampler.Next (⟨table N r⟩ : IterativePolynomialSampler N Rg)
      = some (psum r N, ⟨table N (psum r)⟩) := by
  have key := foldlM_range_trace
    (fun (regs : List Rg) (i : ℕ) => do
      let a ← regs[i + 1]?
      let b ← regs[i]?
      store regs (i + 1) (a + b))
    (fun i => table N (fun k => if k ≤ i then psum r k else r k)) N
    (by
      intro i hi
      simp only [table_get N _ (i + 1) (by omega), table_get N _ i (by omega),
        Option.bind_eq_bind, Option.some_bind]
      rw [table_store N _ (i + 1) _ (by omega)]
      congr 1
      apply table_congr
      intro k _
      by_cases hki : k = i + 1
      · subst hki
        simp [psum]
      · rw [Function.update_noteq hki]
        by_cases h1 : k ≤ i
        · have h2 : k ≤ i + 1 := by omega
          simp [h1, h2]
        · have h2 : ¬ k ≤ i + 1 := by omega
          simp [h1, h2])
  have hstart : table N (fun k => if k ≤ 0 then psum r k else r k) = table N r :=
    table_congr N _ _ (fun k _ => by
      by_cases h : k = 0
      · subst h
        simp [psum]
      · have : ¬ k ≤ 0 := by omega
        simp [this])
  have hend : table N (fun k => if k ≤ N then psum r k else r k) = table N (psum r) :=
    table_congr N _ _ (fun k hk => by simp [hk])
  simp only [hstart, hend] at key
  simp only [Option.bind_eq_bind] at key
  unfold IterativePolynomialSampler.Next
  simp only [Option.bind_eq_bind, key, table_get N _ N (le_refl N), Option.some_bind]
  rfl

theorem nextCalls_eq {Rg : Type} [Add Rg] (N m : ℕ) (r : ℕ → Rg) :
    IterativePolynomialSampler.nextCalls m (⟨table N r⟩ : IterativePolynomialSampler N Rg)
      = some ((List.range m).map (fun i => (psum^[i + 1] r) N), ⟨table N (psum^[m] r)⟩) := by
  induction m generalizing r with
  | zero => rfl
  | succ m ih =>
    unfold IterativePolynomialSampler.nextCalls
    simp only [next_eq, ih, Option.bind_eq_bind, Option.some_bind, List.range_succ_eq_map,
      List.map_cons, List.map_map, Function.iterate_succ, Function.comp_apply]
    rfl

/-! ## Forward differences of a polynomial sequence -/

theorem fdiff_succ_inner {R : Type} [CommRing R] (f : ℕ → R) (o k : ℕ) :
    fdiff f (o + 1) k = fdiff (fun t => f (t + 1) - f t) o k := by
  induction o generalizing k with
  | zero => rfl
  | succ o ih =>
    rw [fdiff, ih (k + 1), ih k]
    rfl

theorem fdiff_sum {R : Type} [CommRing R] {ι : Type} (s : Finset ι) (w : ι → R)
    (F : ι → ℕ → R) (o k : ℕ) :
    fdiff (fun t => ∑ j in s, w j * F j t) o k = ∑ j in s, w j * fdiff (F j) o k := by
  induction o generalizing k with
  | zero => rfl
  | succ o ih =>
    simp only [fdiff, ih, ← Finset.sum_sub_distrib, mul_sub]

theorem fdiff_congr {R : Type} [CommRing R] (f g : ℕ → R) (h : ∀ t, f t = g t) (o k : ℕ) :
    fdiff f o k = fdiff g o k := by
  have : f = g := funext h
  rw [this]

/-- Differences of the sampled monomial `t ↦ (a + t * h) ^ d`: the order-`n` difference
vanishes for `d < n` and is the constant `n! * h ^ n` for `d = n`. -/
theorem fdiff_monomial {R : Type} [CommRing R] (a h : R) (n : ℕ) :
    ∀ d, d ≤ n → ∀ k, fdiff (fun t : ℕ => (a + (t : R) * h) ^ d) n k
      = if d = n then (n.factorial : R) * h ^ n else 0 := by
  induction n with
  | zero =>
    intro d hd k
    have : d = 0 := by omega
    subst this
    simp [fdiff]
  | succ n ih =>
    intro d hd k
    rw [fdiff_succ_inner]
    have hstep : ∀ t : ℕ, (a + ((t + 1 : ℕ) : R) * h) ^ d - (a + (t : R) * h) ^ d
        = ∑ j in Finset.range d, ((d.choose j : R) * h ^ (d - j)) * (a + (t : R) * h) ^ j := by
      intro t
      have e : a + ((t + 1 : ℕ) : R) * h = (a + (t : R) * h) + h := by
        push_cast
        ring
      rw [e, add_pow, Finset.sum_range_succ]
      simp only [Nat.sub_self, pow_zero, mul_one, Nat.choose_self, Nat.cast_one,
        add_sub_cancel_right]
      apply Finset.sum_congr rfl
      intro j _
      ring
    rw [fdiff_congr _ _ hstep, fdiff_sum]
    by_cases hdn : d = n + 1
    · subst hdn
      rw [if_pos rfl, Finset.sum_range_succ]
      have hz : ∑ j in Finset.range n, ((((n + 1).choose j : ℕ) : R) * h ^ (n + 1 - j))
          * fdiff (fun t : ℕ => (a + (t : R) * h) ^ j) n k = 0 := by
        apply Finset.sum_eq_zero
        intro j hj
        have hjn : j < n := Finset.mem_range.mp hj
        rw [ih j (by omega) k, if_neg (by omega), mul_zero]
      rw [hz, ih n (le_refl n) k, if_pos rfl, zero_add, Nat.choose_succ_self_right,
        Nat.factorial_succ]
      have : n + 1 - n = 1 := by omega
      rw [this]
      push_cast
      ring
    · rw [if_neg hdn]
      apply Finset.sum_eq_zero
      intro j hj
      have hjn : j < d := Finset.mem_range.mp hj
      rw [ih j (by omega) k, if_neg (by omega), mul_zero]

theorem referenceSum_eq_range {R : Type} [CommRing R] (N : ℕ) (cf : List R) (y : R) :
    referenceSum N cf y = ∑ i in Finset.range (N + 1), cf.getD i 0 * y ^ i := by
  unfold referenceSum
  rw [Finset.sum_range_succ', Finset.range_eq_Ico, Finset.sum_Ico_add' (fun i => cf.getD i 0 * y ^ i) 0 N 1]
  simp [add_comm]
  rfl

theorem startValue_eq_sum {R : Type} [CommRing R] (N : ℕ) (cf : List R) (x dx : R) (t : ℕ) :
    startValue N cf x dx t
      = ∑ i in Finset.range (N + 1), cf.getD i 0 * ((x - ((N : R) + 1) * dx) + (t : R) * dx) ^ i := by
  unfold startValue
  rw [referenceSum_eq_range]
  have e : x + (((t : ℤ) - (N : ℤ) - 1 : ℤ) : R) * dx = (x - ((N : R) + 1) * dx) + (t : R) * dx := by
    push_cast
    ring
  rw [e]

/-- The order-`N` difference of the start samples is the constant `N! * c[N] * dx ^ N`. -/
theorem fdiff_startValue_top {R : Type} [CommRing R] (N : ℕ) (cf : List R) (x dx : R) (k : ℕ) :
    fdiff (startValue N cf x dx) N k = (N.factorial : R) * cf.getD N 0 * dx ^ N := by
  rw [fdiff_congr _ _ (startValue_eq_sum N cf x dx), fdiff_sum, Finset.sum_range_succ]
  have hz : ∑ j in Finset.range N, cf.getD j 0
      * fdiff (fun t : ℕ => ((x - ((N : R) + 1) * dx) + (t : R) * dx) ^ j) N k = 0 := by
    apply Finset.sum_eq_zero
    intro j hj
    have hjn : j < N := Finset.mem_range.mp hj
    rw [fdiff_monomial _ _ N j (by omega) k, if_neg (by omega), mul_zero]
  rw [hz, fdiff_monomial _ _ N N (le_refl N) k, if_pos rfl]
  ring

theorem startValue_shift {R : Type} [CommRing R] (N : ℕ) (cf : List R) (x dx : R) (i : ℕ) :
    startValue N cf x dx (N + i + 1) = referenceSum N cf (x + (i : R) * dx) := by
  unfold startValue
  have e : (((N + i + 1 : ℕ) : ℤ) - (N : ℤ) - 1 : ℤ) = (i : ℤ) := by
    push_cast
    ring
  rw [e]
  simp

theorem psum_congr {Rg : Type} [Add Rg] (r r' : ℕ → Rg) (k : ℕ) (h : ∀ j, j ≤ k → r j = r' j) :
    psum r k = psum r' k := by
  induction k with
  | zero => exact h 0 (le_refl 0)
  | succ k ih =>
    simp only [psum]
    rw [h (k + 1) (le_refl _), ih (fun j hj => h j (by omega))]

theorem psum_zero_iter {Rg : Type} [Add Rg] (r : ℕ → Rg) (m : ℕ) : (psum^[m] r) 0 = r 0 := by
  induction m generalizing r with
  | zero => rfl
  | succ m ih =>
    rw [Function.iterate_succ_apply, ih]
    rfl

/-- One `Next()` on a difference table whose top difference is constant moves every
slot one sample on. -/
theorem psum_fdiff {R : Type} [CommRing R] (f : ℕ → R) (N m : ℕ)
    (hconst : ∀ t, fdiff f N t = fdiff f N 0) :
    ∀ k, k ≤ N → psum (fun k => fdiff f (N - k) (k + m)) k = fdiff f (N - k) (k + m + 1) := by
  intro k
  induction k with
  | zero =>
    intro _
    simp only [psum, Nat.sub_zero, Nat.zero_add]
    rw [hconst m, hconst (m + 1)]
  | succ k ih =>
    intro hk
    simp only [psum]
    rw [ih (by omega)]
    have e : N - k = (N - (k + 1)) + 1 := by omega
    rw [e, fdiff]
    have e2 : k + 1 + m = k + m + 1 := by omega
    rw [e2]
    ring

theorem iter_psum_fdiff {R : Type} [CommRing R] (f : ℕ → R) (N : ℕ)
    (hconst : ∀ t, fdiff f N t = fdiff f N 0) (m : ℕ) :
    ∀ k, k ≤ N → (psum^[m] (fun k => fdiff f (N - k) k)) k = fdiff f (N - k) (k + m) := by
  induction m with
  | zero =>
    intro k _
    rfl
  | succ m ih =>
    intro k hk
    rw [Function.iterate_succ_apply', psum_congr _ (fun k => fdiff f (N - k) (k + m)) k
      (fun j hj => ih j (by omega)), psum_fdiff f N m hconst k hk]
    rfl

/-- Construction followed by `m` calls of `Next()`: the samples are the reference values at
`x, x + dx, ...`, and slot `k` holds the difference of order `N - k` at index `k + m`. -/
theorem run_eq {R : Type} [CommRing R] (N : ℕ) (cf : List R) (x dx : R) (m : ℕ)
    (hc : cf.length = N + 1) :
    (IterativePolynomialSampler.init id (⟨cf⟩ : Polynomial N R) x dx).bind
        (IterativePolynomialSampler.nextCalls m)
      = some ((List.range m).map (fun (i : ℕ) => referenceSum N cf (x + (i : R) * dx)),
          ⟨table N (fun k => fdiff (startValue N cf x dx) (N - k) (k + m))⟩) := by
  have hconst : ∀ t, fdiff (startValue N cf x dx) N t = fdiff (startValue N cf x dx) N 0 := by
    intro t
    rw [fdiff_startValue_top, fdiff_startValue_top]
  rw [init_eq N cf x dx hc, Option.some_bind, nextCalls_eq]
  congr 2
  · apply List.map_congr_left
    intro i _
    rw [iter_psum_fdiff _ N hconst (i + 1) N (le_refl N), Nat.sub_self]
    simp only [fdiff]
    rw [show N + (i + 1) = N + i + 1 by omega, startValue_shift]
  · congr 1
    exact table_congr N _ _ (fun k hk => iter_psum_fdiff _ N hconst m k hk)

/-- One more `Next()` after construction and `m` calls returns the reference value at
`x + m * dx`. -/
theorem next_after_run {R : Type} [CommRing R] (N : ℕ) (cf : List R) (x dx : R) (m : ℕ) :
    IterativePolynomialSampler.Next
        (⟨table N (fun k => fdiff (startValue N cf x dx) (N - k) (k + m))⟩ :
          IterativePolynomialSampler N R)
      = some (referenceSum N cf (x + (m : R) * dx),
          ⟨table N (fun k => fdiff (startValue N cf x dx) (N - k) (k + (m + 1)))⟩) := by
  have hconst : ∀ t, fdiff (startValue N cf x dx) N t = fdiff (startValue N cf x dx) N 0 := by
    intro t
    rw [fdiff_startValue_top, fdiff_startValue_top]
  rw [next_eq]
  congr 2
  · rw [psum_fdiff _ N m hconst N (le_refl N), Nat.sub_self]
    simp only [fdiff]
    rw [startValue_shift]
  · congr 1
    exact table_congr N _ _ (fun k hk => psum_fdiff _ N m hconst k hk)

/-- C1. Sample-sequence correctness in exact arithmetic: for a polynomial `p` of degree
`N` (coefficient array of size `N + 1`), any `x`, `dx` and any `m ≥ 1`, construction
succeeds, the first `m - 1` calls of `Next()` succeed, and the `m`-th call returns exactly
the value the evaluator `p` gives at `x + (m - 1) * dx` (the narrowing conversion being the
identity). -/
theorem sample_sequence_exact {R : Type} [CommRing R] (N : ℕ) (p : Polynomial N R) (x dx : R)
    (m : ℕ) (hp : p.coefficients_.length = N + 1) (hm : 1 ≤ m) :
    ∃ s0 earlier s1 v s2,
      IterativePolynomialSampler.init id p x dx = some s0
      ∧ IterativePolynomialSampler.nextCalls (m - 1) s0 = some (earlier, s1)
      ∧ IterativePolynomialSampler.Next s1 = some (v, s2)
      ∧ p.evaluate (x + ((m : R) - 1) * dx) = some v := by
  obtain ⟨cf⟩ := p
  simp only at hp
  have hrun := run_eq N cf x dx (m - 1) hp
  rw [init_eq N cf x dx hp, Option.some_bind] at hrun
  refine ⟨_, _, _, _, _, init_eq N cf x dx hp, hrun, next_after_run N cf x dx (m - 1), ?_⟩
  rw [evaluate_eq N cf _ hp]
  have e : ((m - 1 : ℕ) : R) = (m : R) - 1 := by
    rw [Nat.cast_sub hm]
    simp
  rw [e]

/-- C2. In exact arithmetic, register 0 immediately after construction holds
`N! * c[N] * dx ^ N`, whatever `x` and the lower coefficients are. -/
theorem register_zero_after_init {R : Type} [CommRing R] (N : ℕ) (p : Polynomial N R)
    (x dx cN : R) (hp : p.coefficients_.length = N + 1) (hN : p.coefficients_[N]? = some cN) :
    ∃ s, IterativePolynomialSampler.init id p x dx = some s
      ∧ s.registers_[0]? = some ((N.factorial : R) * cN * dx ^ N) := by
  obtain ⟨cf⟩ := p
  simp only at hp hN
  refine ⟨_, init_eq N cf x dx hp, ?_⟩
  simp only
  rw [table_get N _ 0 (Nat.zero_le N), Nat.sub_zero, fdiff_startValue_top]
  have : cf.getD N 0 = cN := by
    simp [List.getD, hN]
  rw [this]

/-- C3. `Next()` never writes register 0: from any register file of `N + 1` registers, any
number `m` of calls succeeds and leaves register 0 as it was. -/
theorem next_keeps_register_zero {Rg : Type} [Add Rg] (N m : ℕ)
    (s : IterativePolynomialSampler N Rg) (hs : s.registers_.length = N + 1) :
    ∃ samples s1, IterativePolynomialSampler.nextCalls m s = some (samples, s1)
      ∧ s1.registers_[0]? = s.registers_[0]? := by
  obtain ⟨regs⟩ := s
  simp only at hs
  cases regs with
  | nil => simp at hs
  | cons a rest =>
    have ht := eq_table_of_length N (a :: rest) a hs
    have hrun := nextCalls_eq N m (fun k => (a :: rest).getD k a)
    rw [← ht] at hrun
    refine ⟨_, _, hrun, ?_⟩
    simp only
    rw [table_get N _ 0 (Nat.zero_le N), psum_zero_iter]
    simp

/-- C4. Polynomial evaluation equals the reference sum: for a coefficient array of size
`N + 1` and every `x`, the evaluator returns `c[0] + Σ_{i = 1..N} c[i] * x ^ i`; it is a
function of the (immutable) coefficients and `x` only. -/
theorem polynomial_call_is_referenceSum {R : Type} [CommRing R] (N : ℕ) (p : Polynomial N R) (x : R)
    (hp : p.coefficients_.length = N + 1) :
    p.evaluate x = some (referenceSum N p.coefficients_ x) := by
  obtain ⟨cf⟩ := p
  exact evaluate_eq N cf x hp

theorem fdiff_shift {R : Type} [CommRing R] (f : ℕ → R) (m o k : ℕ) :
    fdiff (fun t => f (t + m)) o k = fdiff f o (k + m) := by
  induction o generalizing k with
  | zero => rfl
  | succ o ih =>
    simp only [fdiff]
    rw [ih, ih, Nat.add_right_comm]

theorem windowValue_eq_startValue {R : Type} [CommRing R] (N : ℕ) (cf : List R) (x dx : R)
    (m t : ℕ) : windowValue N cf x dx m t = startValue N cf x dx (t + m) := by
  unfold windowValue startValue
  have e : ((m : ℤ) - (N : ℤ) - 1 + (t : ℤ) : ℤ) = (((t + m : ℕ) : ℤ) - (N : ℤ) - 1 : ℤ) := by
    push_cast
    ring
  rw [e]

/-- C5, as worded, fails: for `p (t) = t` (`N = 1`), `x = 0`, `dx = 1` and no call yet, the
registers are `[1, -1]`; register 0 is none of the window values `-2, -1, 0`. -/
theorem registerHoldsOrderOfItsIndex_fails :
    ¬ registerHoldsOrderOfItsIndex 1 (⟨[0, 1]⟩ : Polynomial 1 ℚ) 0 1 0 := by
  rintro ⟨samples, s, hrun, h⟩
  have hcode : (IterativePolynomialSampler.init id (⟨[0, 1]⟩ : Polynomial 1 ℚ) 0 1).bind
      (IterativePolynomialSampler.nextCalls 0) = some ([], ⟨[1, -1]⟩) := by
    with_unfolding_all rfl
  rw [hcode] at hrun
  simp only [Option.some.injEq, Prod.mk.injEq] at hrun
  obtain ⟨_, hs⟩ := hrun
  subst hs
  obtain ⟨t, ht, heq⟩ := h 0 (by omega)
  simp only [fdiff, windowValue, referenceSum] at heq
  have ht2 : t ≤ 2 := by omega
  interval_cases t <;> simp at heq <;> norm_num at heq

/-- C5, amended. In exact arithmetic, after construction and `m` calls of `Next()`,
register `k ≤ N` holds the forward difference of order `N - k` at position `k` of the
window, that is, of the values of `p` at `x + (m - N - 1 + k) * dx, ..., x + (m - 1) * dx`. -/
theorem register_holds_complementary_order {R : Type} [CommRing R] (N : ℕ) (p : Polynomial N R)
    (x dx : R) (m : ℕ) (hp : p.coefficients_.length = N + 1) :
    ∃ samples s,
      (IterativePolynomialSampler.init id p x dx).bind (IterativePolynomialSampler.nextCalls m)
        = some (samples, s)
      ∧ ∀ k, k ≤ N →
          s.registers_[k]? = some (fdiff (windowValue N p.coefficients_ x dx m) (N - k) k) := by
  obtain ⟨cf⟩ := p
  simp only at hp
  refine ⟨_, _, run_eq N cf x dx m hp, ?_⟩
  intro k hk
  simp only
  rw [table_get N _ k hk, fdiff_congr _ _ (windowValue_eq_startValue N cf x dx m), fdiff_shift]

/-- C7. Concrete scenario, first sample: with the polynomial, `x = 3` and `dx = 0.1` of
`main` as exact rationals, the first call of `Next()` returns `16.07`, which is `p (3)` and
equals `-7 + 30 - 7.2 + 0.27`. -/
theorem main_first_sample :
    ∃ s0 s1, IterativePolynomialSampler.init id mainPoly kX kDx = some s0
      ∧ IterativePolynomialSampler.Next s0 = some ((1607 / 100 : ℚ), s1)
      ∧ mainPoly.evaluate 3 = some (1607 / 100)
      ∧ (-7 + 30 - 72 / 10 + 27 / 100 : ℚ) = 1607 / 100 := by
  refine ⟨⟨[3 / 50000, -179 / 12500, 56837 / 100000, 1551589 / 100000]⟩,
    ⟨[3 / 50000, -713 / 50000, 55411 / 100000, 1607 / 100]⟩, ?_, ?_, ?_, ?_⟩
  · with_unfolding_all rfl
  · with_unfolding_all rfl
  · with_unfolding_all rfl
  · norm_num

/-- C8, as worded, fails: the second call of `Next()` returns `p (3.1)`, but that value does
not lie in `[16.82, 16.83)`. -/
theorem second_sample_outside_claimed_range :
    ¬ ∃ samples s v,
      (IterativePolynomialSampler.init id mainPoly kX kDx).bind
          (IterativePolynomialSampler.nextCalls 2) = some (samples, s)
      ∧ samples[1]? = some v
      ∧ mainPoly.evaluate (31 / 10) = some v
      ∧ (1682 / 100 : ℚ) ≤ v ∧ v < 1683 / 100 := by
  rintro ⟨samples, s, v, hrun, hv, _, hlo, _⟩
  have hcode : (IterativePolynomialSampler.init id mainPoly kX kDx).bind
      (IterativePolynomialSampler.nextCalls 2)
      = some ([1607 / 100, 1660991 / 100000],
          ⟨[3 / 50000, -71 / 5000, 53991 / 100000, 1660991 / 100000]⟩) := by
    with_unfolding_all rfl
  rw [hcode] at hrun
  simp only [Option.some.injEq, Prod.mk.injEq] at hrun
  obtain ⟨hsamples, _⟩ := hrun
  subst hsamples
  simp at hv
  subst hv
  norm_num at hlo

/-- C8, amended. Concrete scenario, second sample: the second call of `Next()` returns
`p (3.1) = 16.60991`, which lies in `[16.60, 16.61)`. -/
theorem main_second_sample_value :
    ∃ samples s,
      (IterativePolynomialSampler.init id mainPoly kX kDx).bind
          (IterativePolynomialSampler.nextCalls 2) = some (samples, s)
      ∧ samples[1]? = some (1660991 / 100000 : ℚ)
      ∧ mainPoly.evaluate (31 / 10) = some (1660991 / 100000)
      ∧ (1660 / 100 : ℚ) ≤ 1660991 / 100000 ∧ (1660991 / 100000 : ℚ) < 1661 / 100 := by
  refine ⟨[1607 / 100, 1660991 / 100000],
    ⟨[3 / 50000, -71 / 5000, 53991 / 100000, 1660991 / 100000]⟩, ?_, ?_, ?_, ?_, ?_⟩
  · with_unfolding_all rfl
  · rfl
  · with_unfolding_all rfl
  · norm_num
  · norm_num

/-- C9. Step-count invariance: from any register file of `N + 1` registers, `k` calls of
`Next()` followed by `m` more calls succeed and leave exactly the register file (and
produce exactly the samples) of `k + m` calls. -/
theorem step_count_invariance {Rg : Type} [Add Rg] (N k m : ℕ)
    (s : IterativePolynomialSampler N Rg) (hs : s.registers_.length = N + 1) :
    ∃ a s1 b s2,
      IterativePolynomialSampler.nextCalls k s = some (a, s1)
      ∧ IterativePolynomialSampler.nextCalls m s1 = some (b, s2)
      ∧ IterativePolynomialSampler.nextCalls (k + m) s = some (a ++ b, s2) := by
  obtain ⟨regs⟩ := s
  simp only at hs
  cases regs with
  | nil => simp at hs
  | cons a0 rest =>
    have ht := eq_table_of_length N (a0 :: rest) a0 hs
    have h1 := nextCalls_eq N k (fun j => (a0 :: rest).getD j a0)
    have h3 := nextCalls_eq N (k + m) (fun j => (a0 :: rest).getD j a0)
    rw [← ht] at h1 h3
    refine ⟨_, _, _, _, h1, nextCalls_eq N m _, ?_⟩
    rw [h3, List.range_add, List.map_append, List.map_map, add_comm k m,
      Function.iterate_add_apply]
    congr 3
    apply List.map_congr_left
    intro i _
    simp only [Function.comp_apply]
    rw [show k + i + 1 = (i + 1) + k by omega, Function.iterate_add_apply]

theorem fdiff_const {R : Type} [CommRing R] (v : R) (o k : ℕ) :
    fdiff (fun _ => v) (o + 1) k = 0 := by
  induction o generalizing k with
  | zero => simp [fdiff]
  | succ o ih =>
    rw [fdiff, ih, ih, sub_zero]

theorem map_range_const {α : Type} (m : ℕ) (v : α) :
    (List.range m).map (fun _ => v) = List.replicate m v := by
  rw [List.map_const', List.length_range]

theorem psum_eq_sum {Rg : Type} [AddCommMonoid Rg] (r : ℕ → Rg) (k : ℕ) :
    psum r k = ∑ j in Finset.range (k + 1), r j := by
  induction k with
  | zero => simp [psum]
  | succ k ih =>
    rw [psum, ih, Finset.sum_range_succ _ (k + 1), add_comm]

/-- C13. Difference-table invariant with the code's index mapping: with
`f (i) = p (x + (i - N - 1) * dx)` (the evaluator's value, `startValue`), after construction
and `m` calls of `Next()` register `j ≤ N` holds the forward difference of order `N - j` of
`f` at index `j + m`; register `N` holds the raw value `f (N + m)` and register `0` the
`N`-th difference. -/
theorem difference_table_invariant {R : Type} [CommRing R] (N : ℕ) (p : Polynomial N R)
    (x dx : R) (m : ℕ) (hp : p.coefficients_.length = N + 1) :
    (∀ i : ℕ, p.evaluate (x + (((i : ℤ) - (N : ℤ) - 1 : ℤ) : R) * dx)
        = some (startValue N p.coefficients_ x dx i))
    ∧ ∃ samples s,
        (IterativePolynomialSampler.init id p x dx).bind (IterativePolynomialSampler.nextCalls m)
          = some (samples, s)
        ∧ (∀ j, j ≤ N → s.registers_[j]?
            = some (fdiff (startValue N p.coefficients_ x dx) (N - j) (j + m)))
        ∧ s.registers_[N]? = some (startValue N p.coefficients_ x dx (N + m))
        ∧ s.registers_[0]? = some (fdiff (startValue N p.coefficients_ x dx) N m) := by
  obtain ⟨cf⟩ := p
  simp only at hp
  refine ⟨fun i => evaluate_eq N cf _ hp, _, _, run_eq N cf x dx m hp, ?_, ?_, ?_⟩
  · intro j hj
    simp only
    rw [table_get N _ j hj]
  · simp only
    rw [table_get N _ N (le_refl N), Nat.sub_self]
    rfl
  · simp only
    rw [table_get N _ 0 (Nat.zero_le N), Nat.sub_zero, Nat.zero_add]

/-- Closed form of `m` running-sum passes, with binomial weights (truncated subtraction
makes it hold for `m = 0` as well). -/
theorem iter_psum_closed {R : Type} [CommRing R] (r : ℕ → R) (m : ℕ) :
    ∀ k, (psum^[m] r) k
      = ∑ j in Finset.range (k + 1), ((m + k - j - 1).choose (k - j) : R) * r j := by
  induction m with
  | zero =>
    intro k
    rw [Finset.sum_range_succ]
    have hz : ∑ j in Finset.range k, ((0 + k - j - 1).choose (k - j) : R) * r j = 0 := by
      apply Finset.sum_eq_zero
      intro j hj
      have hjk : j < k := Finset.mem_range.mp hj
      rw [Nat.choose_eq_zero_of_lt (by omega)]
      simp
    rw [hz]
    simp
  | succ m ihm =>
    intro k
    induction k with
    | zero =>
      rw [psum_zero_iter]
      simp
    | succ k ihk =>
      rw [Function.iterate_succ_apply', psum, ← Function.iterate_succ_apply' psum m r, ihk, ihm,
        Finset.sum_range_succ _ (k + 1), Finset.sum_range_succ _ (k + 1), add_assoc,
        add_comm _ (∑ j in Finset.range (k + 1), _), ← add_assoc, ← Finset.sum_add_distrib]
      congr 1
      · apply Finset.sum_congr rfl
        intro j hj
        have hjk : j < k + 1 := Finset.mem_range.mp hj
        obtain ⟨d, hd⟩ : ∃ d, k = j + d := ⟨k - j, by omega⟩
        have e1 : m + (k + 1) - j - 1 = m + d := by omega
        have e2 : k + 1 - j = d + 1 := by omega
        have e3 : m + 1 + k - j - 1 = m + d := by omega
        have e4 : k - j = d := by omega
        have e5 : m + 1 + (k + 1) - j - 1 = m + d + 1 := by omega
        rw [e1, e2, e3, e4, e5, Nat.choose_succ_succ]
        push_cast
        ring
      · have e1 : m + (k + 1) - (k + 1) - 1 = m - 1 := by omega
        have e2 : m + 1 + (k + 1) - (k + 1) - 1 = m := by omega
        rw [e1, e2, Nat.sub_self]
        simp

/-- C15. Closed form of `m` steps: from any file `r[0..N]` of `N + 1` registers and for
`m ≥ 1`, `m` calls of `Next()` succeed, register `k ≤ N` then holds
`Σ_{j = 0..k} C (m + k - j - 1, k - j) * r[j]`, and the `m`-th returned sample is
`Σ_{j = 0..N} C (m + N - j - 1, N - j) * r[j]`. -/
theorem closed_form_of_m_steps {R : Type} [CommRing R] (N m : ℕ)
    (s : IterativePolynomialSampler N R) (hs : s.registers_.length = N + 1) (hm : 1 ≤ m) :
    ∃ samples s1, IterativePolynomialSampler.nextCalls m s = some (samples, s1)
      ∧ (∀ k, k ≤ N → s1.registers_[k]?
          = some (∑ j in Finset.range (k + 1),
              ((m + k - j - 1).choose (k - j) : R) * s.registers_.getD j 0))
      ∧ samples[m - 1]?
          = some (∑ j in Finset.range (N + 1),
              ((m + N - j - 1).choose (N - j) : R) * s.registers_.getD j 0) := by
  obtain ⟨regs⟩ := s
  simp only at hs
  have ht := eq_table_of_length N regs 0 hs
  have h := nextCalls_eq N m (fun j => regs.getD j 0)
  rw [← ht] at h
  refine ⟨_, _, h, ?_, ?_⟩
  · intro k hk
    simp only
    rw [table_get N _ k hk, iter_psum_closed]
  · have hlt : m - 1 < m := by omega
    rw [List.getElem?_map, List.getElem?_range hlt]
    simp only [Option.map_some']
    rw [show m - 1 + 1 = m by omega, iter_psum_closed]

theorem startValue_moved {R : Type} [CommRing R] (N : ℕ) (cf : List R) (x dx : R) (k i : ℕ) :
    startValue N cf (x + (k : R) * dx) dx i = startValue N cf x dx (i + k) := by
  unfold startValue
  congr 1
  push_cast
  ring

/-- C16. Shift invariance of the register state: constructing at `(p, x, dx)` and calling
`Next()` `k` times succeeds and leaves exactly the sampler that construction at
`(p, x + k * dx, dx)` produces. -/
theorem shift_invariance {R : Type} [CommRing R] (N : ℕ) (p : Polynomial N R) (x dx : R)
    (k : ℕ) (hp : p.coefficients_.length = N + 1) :
    ∃ samples s,
      (IterativePolynomialSampler.init id p x dx).bind (IterativePolynomialSampler.nextCalls k)
        = some (samples, s)
      ∧ IterativePolynomialSampler.init id p (x + (k : R) * dx) dx = some s := by
  obtain ⟨cf⟩ := p
  simp only at hp
  refine ⟨_, _, run_eq N cf x dx k hp, ?_⟩
  rw [init_eq N cf _ dx hp]
  congr 2
  apply table_congr
  intro j _
  rw [fdiff_congr _ _ (fun i => startValue_moved N cf x dx k i), fdiff_shift]

/-- Differences of order above the effective degree vanish. -/
theorem fdiff_startValue_high {R : Type} [CommRing R] (N d : ℕ) (cf : List R) (x dx : R)
    (hz : ∀ i, d < i → i ≤ N → cf.getD i 0 = 0) (o k : ℕ) (ho : d < o) :
    fdiff (startValue N cf x dx) o k = 0 := by
  rw [fdiff_congr _ _ (startValue_eq_sum N cf x dx), fdiff_sum]
  apply Finset.sum_eq_zero
  intro i hi
  have hiN : i < N + 1 := Finset.mem_range.mp hi
  by_cases hid : i ≤ d
  · rw [fdiff_monomial _ _ o i (by omega) k, if_neg (by omega), mul_zero]
  · rw [hz i (by omega) (by omega), zero_mul]

/-- C17. Lower-degree polynomials leave the low registers zero: if `c[i] = 0` for all `i`
in `d + 1 .. N`, then after construction and any number `m` of calls of `Next()`
(`m = 0` included) registers `0 .. N - d - 1` are all zero, for every `x` and `dx`. -/
theorem low_registers_stay_zero {R : Type} [CommRing R] (N d : ℕ) (p : Polynomial N R)
    (x dx : R) (m : ℕ) (hp : p.coefficients_.length = N + 1)
    (hz : ∀ i, d < i → i ≤ N → p.coefficients_[i]? = some 0) :
    ∃ samples s,
      (IterativePolynomialSampler.init id p x dx).bind (IterativePolynomialSampler.nextCalls m)
        = some (samples, s)
      ∧ ∀ j, j + d < N → s.registers_[j]? = some 0 := by
  obtain ⟨cf⟩ := p
  simp only at hp hz
  have hz0 : ∀ i, d < i → i ≤ N → cf.getD i 0 = 0 := by
    intro i h1 h2
    simp [List.getD, hz i h1 h2]
  refine ⟨_, _, run_eq N cf x dx m hp, ?_⟩
  intro j hj
  simp only
  rw [table_get N _ j (by omega), fdiff_startValue_high N d cf x dx hz0 _ _ (by omega)]

theorem zipWith_same {α β : Type} (h : α → α → β) (l : List α) :
    List.zipWith h l l = l.map (fun u => h u u) := by
  induction l with
  | nil => rfl
  | cons u l ih => simp [ih]

theorem combine_table {R : Type} [CommRing R] (N : ℕ) (a b : R) (f g : ℕ → R) :
    combine a b (table N f) (table N g) = table N (fun k => a * f k + b * g k) := by
  unfold combine table
  rw [List.zipWith_map, zipWith_same]

theorem combine_getD {R : Type} [CommRing R] (a b : R) (u v : List R) (N i : ℕ)
    (hu : u.length = N + 1) (hv : v.length = N + 1) (hi : i ≤ N) :
    (combine a b u v).getD i 0 = a * u.getD i 0 + b * v.getD i 0 := by
  have hu1 := getElem?_eq_some_getD u i 0 (by omega)
  have hv1 := getElem?_eq_some_getD v i 0 (by omega)
  have hz : (combine a b u v)[i]? = some (a * u.getD i 0 + b * v.getD i 0) := by
    unfold combine
    rw [List.getElem?_zipWith, hu1, hv1]
  rw [List.getD_eq_getElem?_getD, hz, Option.getD_some]

theorem referenceSum_combine {R : Type} [CommRing R] (N : ℕ) (a b : R) (u v : List R) (y : R)
    (hu : u.length = N + 1) (hv : v.length = N + 1) :
    referenceSum N (combine a b u v) y = a * referenceSum N u y + b * referenceSum N v y := by
  rw [referenceSum_eq_range, referenceSum_eq_range, referenceSum_eq_range, Finset.mul_sum,
    Finset.mul_sum, ← Finset.sum_add_distrib]
  apply Finset.sum_congr rfl
  intro i hi
  have hiN : i < N + 1 := Finset.mem_range.mp hi
  rw [combine_getD a b u v N i hu hv (by omega)]
  ring

theorem fdiff_combine {R : Type} [CommRing R] (a b : R) (f g : ℕ → R) (o k : ℕ) :
    fdiff (fun t => a * f t + b * g t) o k = a * fdiff f o k + b * fdiff g o k := by
  induction o generalizing k with
  | zero => rfl
  | succ o ih =>
    simp only [fdiff, ih]
    ring

/-- C18. Linearity in the polynomial: for coefficient arrays `c` and `d` of size `N + 1`
and scalars `a`, `b`, the sampler built from the coefficients `a * c + b * d`, after `m`
calls of `Next()`, has as registers `a` times those of the sampler built from `c` plus `b`
times those of the sampler built from `d` (same `x`, `dx`, `m`), and the samples returned
combine in the same way. -/
theorem linearity_in_polynomial {R : Type} [CommRing R] (N : ℕ) (pc pd : Polynomial N R)
    (a b x dx : R) (m : ℕ) (hc : pc.coefficients_.length = N + 1)
    (hd : pd.coefficients_.length = N + 1) :
    ∃ outc sc outd sd,
      (IterativePolynomialSampler.init id pc x dx).bind (IterativePolynomialSampler.nextCalls m)
        = some (outc, sc)
      ∧ (IterativePolynomialSampler.init id pd x dx).bind
          (IterativePolynomialSampler.nextCalls m) = some (outd, sd)
      ∧ (IterativePolynomialSampler.init id
            (⟨combine a b pc.coefficients_ pd.coefficients_⟩ : Polynomial N R) x dx).bind
          (IterativePolynomialSampler.nextCalls m)
        = some (combine a b outc outd, ⟨combine a b sc.registers_ sd.registers_⟩) := by
  obtain ⟨cf⟩ := pc
  obtain ⟨df⟩ := pd
  simp only at hc hd
  have hl : (combine a b cf df).length = N + 1 := by
    simp [combine, hc, hd]
  refine ⟨_, _, _, _, run_eq N cf x dx m hc, run_eq N df x dx m hd, ?_⟩
  rw [run_eq N (combine a b cf df) x dx m hl]
  have hsv : ∀ t, startValue N (combine a b cf df) x dx t
      = a * startValue N cf x dx t + b * startValue N df x dx t := by
    intro t
    unfold startValue
    exact referenceSum_combine N a b cf df _ hc hd
  congr 2
  · unfold combine
    rw [List.zipWith_map, zipWith_same]
    apply List.map_congr_left
    intro i _
    exact referenceSum_combine N a b cf df _ hc hd
  · congr 1
    simp only
    rw [combine_table]
    apply table_congr
    intro k _
    rw [fdiff_congr _ _ hsv, fdiff_combine]

/-- C19, as worded, fails: for `p (t) = t` (`N = 1`), `x = 0`, `dx = 2` the fill stores
`p (-4), p (-2)`, while the comment's `p (x - N - 1 + i * dx)` would be `p (-2), p (0)`. -/
theorem filledAsCommented_fails :
    ¬ filledAsCommented 1 (⟨[0, 1]⟩ : Polynomial 1 ℚ) 0 2 := by
  rintro ⟨hi, hfill, h⟩
  have hcode : fillLoop (⟨[0, 1]⟩ : Polynomial 1 ℚ) 0 2 (List.replicate (1 + 1) 0)
      = some [-4, -2] := by
    with_unfolding_all rfl
  rw [hcode] at hfill
  simp only [Option.some.injEq] at hfill
  subst hfill
  have h0 := h 0 (by omega)
  have hev : (⟨[0, 1]⟩ : Polynomial 1 ℚ).evaluate (0 - ((1 : ℕ) : ℚ) - 1 + ((0 : ℕ) : ℚ) * 2)
      = some (-2) := by
    with_unfolding_all rfl
  rw [hev] at h0
  simp at h0

/-- C19, amended. Initial fill of the constructor, in exact arithmetic: before the
difference passes run, the high-resolution array has `N + 1` entries and entry `i` is
`p (x - (N + 1) * dx + i * dx)`, that is `p (x + (i - N - 1) * dx)`, for `i = 0 .. N`. -/
theorem initial_fill {R : Type} [CommRing R] (N : ℕ) (p : Polynomial N R) (x dx : R)
    (hp : p.coefficients_.length = N + 1) :
    ∃ hi, fillLoop p x dx (List.replicate (N + 1) 0) = some hi
      ∧ hi.length = N + 1
      ∧ ∀ i : ℕ, i ≤ N → hi[i]? = p.evaluate (x - ((N : R) + 1) * dx + (i : R) * dx) := by
  obtain ⟨cf⟩ := p
  simp only at hp
  refine ⟨_, ?_, table_length N (startValue N cf x dx), ?_⟩
  · rw [replicate_eq_table]
    exact fillLoop_eq N cf x dx _ hp
  · intro i hi
    rw [table_get N _ i hi, evaluate_eq N cf _ hp]
    unfold startValue
    congr 2
    push_cast
    ring

/-! ## Properties of the rounding -/

/-- The step compares `n` with `2 ^ (k + b)`. -/
theorem log2Step_eq (n k b : ℕ) :
    log2Step n k b = if 2 ^ (k + b) ≤ n then k + b else k := by
  unfold log2Step
  have e : Nat.shiftRight n (Nat.add k b) = n / 2 ^ (k + b) :=
    Nat.shiftRight_eq_div_pow n (k + b)
  rw [e]
  have ha : Nat.add k b = k + b := rfl
  rw [ha]
  by_cases h : 2 ^ (k + b) ≤ n
  · rw [if_pos h]
    have hne : n / 2 ^ (k + b) ≠ 0 := by
      have hpos := Nat.div_pos h (Nat.two_pow_pos (k + b))
      omega
    cases hb : Nat.beq (n / 2 ^ (k + b)) 0
    · rfl
    · exact absurd (Nat.eq_of_beq_eq_true hb) hne
  · rw [if_neg h]
    have hz : n / 2 ^ (k + b) = 0 := Nat.div_eq_of_lt (Nat.lt_of_not_le h)
    rw [hz]
    rfl

/-- One step keeps the leading bit between the candidate exponent and the remaining range. -/
theorem log2Step_spec (n k b c : ℕ) (hc : c = b + b) (h1 : 2 ^ k ≤ n) (h2 : n < 2 ^ (k + c)) :
    2 ^ log2Step n k b ≤ n ∧ n < 2 ^ (log2Step n k b + b) := by
  subst hc
  rw [log2Step_eq]
  by_cases h : 2 ^ (k + b) ≤ n
  · rw [if_pos h]
    refine ⟨h, ?_⟩
    rw [Nat.add_assoc]
    exact h2
  · rw [if_neg h]
    exact ⟨h1, Nat.lt_of_not_le h⟩

/-- The number of binary digits is right: `2 ^ (bitLength n - 1) ≤ n < 2 ^ bitLength n`. -/
theorem bitLength_spec (n : ℕ) (hn : n ≠ 0) :
    2 ^ (bitLength n - 1) ≤ n ∧ n < 2 ^ bitLength n := by
  unfold bitLength
  rw [if_neg hn]
  by_cases h : n < 2 ^ 8192
  · rw [if_pos h, Nat.add_sub_cancel]
    have h0 : 2 ^ 0 ≤ n := by
      rw [Nat.pow_zero]
      omega
    have h8 : n < 2 ^ (0 + 8192) := by
      rw [Nat.zero_add]
      exact h
    have s0 := log2Step_spec n 0 4096 8192 rfl h0 h8
    generalize log2Step n 0 4096 = k0 at s0 ⊢
    have s1 := log2Step_spec n k0 2048 4096 rfl s0.1 s0.2
    generalize log2Step n k0 2048 = k1 at s1 ⊢
    have s2 := log2Step_spec n k1 1024 2048 rfl s1.1 s1.2
    generalize log2Step n k1 1024 = k2 at s2 ⊢
    have s3 := log2Step_spec n k2 512 1024 rfl s2.1 s2.2
    generalize log2Step n k2 512 = k3 at s3 ⊢
    have s4 := log2Step_spec n k3 256 512 rfl s3.1 s3.2
    generalize log2Step n k3 256 = k4 at s4 ⊢
    have s5 := log2Step_spec n k4 128 256 rfl s4.1 s4.2
    generalize log2Step n k4 128 = k5 at s5 ⊢
    have s6 := log2Step_spec n k5 64 128 rfl s5.1 s5.2
    generalize log2Step n k5 64 = k6 at s6 ⊢
    have s7 := log2Step_spec n k6 32 64 rfl s6.1 s6.2
    generalize log2Step n k6 32 = k7 at s7 ⊢
    have s8 := log2Step_spec n k7 16 32 rfl s7.1 s7.2
    generalize log2Step n k7 16 = k8 at s8 ⊢
    have s9 := log2Step_spec n k8 8 16 rfl s8.1 s8.2
    generalize log2Step n k8 8 = k9 at s9 ⊢
    have s10 := log2Step_spec n k9 4 8 rfl s9.1 s9.2
    generalize log2Step n k9 4 = k10 at s10 ⊢
    have s11 := log2Step_spec n k10 2 4 rfl s10.1 s10.2
    generalize log2Step n k10 2 = k11 at s11 ⊢
    have s12 := log2Step_spec n k11 1 2 rfl s11.1 s11.2
    exact s12
  · rw [if_neg h, Nat.add_sub_cancel]
    exact ⟨Nat.log2_self_le hn, Nat.lt_log2_self⟩

/-- The quotient `divRoundEven a d` is a nearest integer to `a / d`: it misses `a / d` by at
most one half, and at a tie it is even. -/
theorem divRoundEven_spec (a d : ℕ) (hd : 0 < d) :
    2 * a ≤ 2 * (divRoundEven a d * d) + d
    ∧ 2 * (divRoundEven a d * d) ≤ 2 * a + d
    ∧ (2 * (a % d) = d → divRoundEven a d % 2 = 0)
    ∧ divRoundEven a d ≤ a / d + 1 := by
  have hdm := Nat.div_add_mod a d
  have hlt := Nat.mod_lt a hd
  have e1 : (a / d + 1) * d = d * (a / d) + d := by ring
  have e2 : a / d * d = d * (a / d) := by ring
  unfold divRoundEven
  by_cases h1 : 2 * (a % d) < d
  · rw [if_pos h1, e2]
    refine ⟨by omega, by omega, by omega, by omega⟩
  · rw [if_neg h1]
    by_cases h2 : d < 2 * (a % d)
    · rw [if_pos h2, e1]
      refine ⟨by omega, by omega, by omega, by omega⟩
    · rw [if_neg h2]
      by_cases h3 : a / d % 2 = 0
      · rw [if_pos h3, e2]
        refine ⟨by omega, by omega, fun _ => h3, by omega⟩
      · rw [if_neg h3, e1]
        refine ⟨by omega, by omega, fun _ => by omega, by omega⟩

/-- The rounding `roundMagnitude p a d` is a multiple of `2 ^ s`, with `s` the number of
binary digits of `a / d` beyond `p`, by a nearest quotient of at most `p` bits (`≤ 2 ^ p`). -/
theorem roundMagnitude_spec (p a d : ℕ) (hd : 0 < d) :
    roundMagnitude p a d
      = divRoundEven a (d * 2 ^ (bitLength (a / d) - p)) * 2 ^ (bitLength (a / d) - p)
    ∧ divRoundEven a (d * 2 ^ (bitLength (a / d) - p)) ≤ 2 ^ p := by
  refine ⟨rfl, ?_⟩
  have hpos : 0 < d * 2 ^ (bitLength (a / d) - p) := Nat.mul_pos hd (Nat.two_pow_pos _)
  have hq := (divRoundEven_spec a _ hpos).2.2.2
  have hlt : a / (d * 2 ^ (bitLength (a / d) - p)) < 2 ^ p := by
    rw [← Nat.div_div_eq_div_mul, Nat.div_lt_iff_lt_mul (Nat.two_pow_pos _), ← Nat.pow_add]
    by_cases h0 : a / d = 0
    · rw [h0]
      exact Nat.two_pow_pos _
    · have hb := (bitLength_spec (a / d) h0).2
      exact Nat.lt_of_lt_of_le hb (Nat.pow_le_pow_right (by decide) (by omega))
  omega

/-! ## The sampling loop of `main` on `double` -/

theorem driftRun_add {N : ℕ} (p : Polynomial N (Fl 53)) (kX kDx : Fl 53) (a b : ℕ) :
    ∀ (i : ℕ) (s : IterativePolynomialSampler N (Fl 53)),
      driftRun p kX kDx (a + b) i s = (driftRun p kX kDx a i s).bind (driftRun p kX kDx b (i + a)) := by
  induction a with
  | zero =>
    intro i s
    simp [driftRun]
  | succ a ih =>
    intro i s
    rw [Nat.succ_add]
    simp only [driftRun]
    cases h : mainLoopBody p kX kDx s i with
    | none => rfl
    | some r =>
      obtain ⟨row, s1⟩ := r
      simp only
      by_cases hw : withinDrift row = true
      · simp only [hw, if_true]
        rw [ih (i + 1) s1, show i + 1 + a = i + (a + 1) by omega]
      · simp only [hw]
        rfl

theorem driftRun_rows {N : ℕ} (p : Polynomial N (Fl 53)) (kX kDx : Fl 53) (n : ℕ) :
    ∀ (i : ℕ) (s s1 : IterativePolynomialSampler N (Fl 53)),
      driftRun p kX kDx n i s = some s1 →
      ∃ rows, mainLoop p kX kDx n i s = some (rows, s1) ∧ rows.length = n
        ∧ ∀ r, r ∈ rows → withinDrift r = true := by
  induction n with
  | zero =>
    intro i s s1 h
    simp only [driftRun, Option.some.injEq] at h
    subst h
    exact ⟨[], rfl, rfl, by simp⟩
  | succ n ih =>
    intro i s s1 h
    simp only [driftRun] at h
    cases hb : mainLoopBody p kX kDx s i with
    | none => simp [hb] at h
    | some r =>
      obtain ⟨row, s2⟩ := r
      simp only [hb] at h
      by_cases hw : withinDrift row = true
      · simp only [hw, if_true] at h
        obtain ⟨rows, hrows, hlen, hall⟩ := ih (i + 1) s2 s1 h
        refine ⟨row :: rows, ?_, by simp [hlen], ?_⟩
        · simp only [mainLoop, hb, hrows, Option.bind_eq_bind, Option.some_bind]
          rfl
        · intro r hr
          rcases List.mem_cons.mp hr with h1 | h1
          · rw [h1]
            exact hw
          · exact hall r h1
      · simp [hw] at h

theorem withinDrift_relative (row : Fl 53 × Fl 53) (h : withinDrift row = true) :
    row.2.val ≠ 0 ∧ 100 * |row.1.val - row.2.val| / |row.2.val| < 1 / 100 := by
  unfold withinDrift at h
  have h1 : 10000 * (row.1.grid - row.2.grid).natAbs < row.2.grid.natAbs := of_decide_eq_true h
  have hg : (0 : ℚ) < (gridScale : ℚ) := by
    unfold gridScale
    positivity
  have hpos : 0 < row.2.grid.natAbs := by omega
  have h2 : (10000 : ℚ) * |((row.1.grid - row.2.grid : ℤ) : ℚ)| < |(row.2.grid : ℚ)| := by
    have : ((10000 * (row.1.grid - row.2.grid).natAbs : ℕ) : ℚ) < ((row.2.grid.natAbs : ℕ) : ℚ) := by
      exact_mod_cast h1
    rw [Nat.cast_mul, Nat.cast_natAbs, Nat.cast_natAbs] at this
    simpa using this
  have hb : (0 : ℚ) < |(row.2.grid : ℚ)| := by
    have : ((0 : ℕ) : ℚ) < ((row.2.grid.natAbs : ℕ) : ℚ) := by exact_mod_cast hpos
    rw [Nat.cast_natAbs] at this
    simpa using this
  have hne : (row.2.grid : ℚ) ≠ 0 := abs_pos.mp hb
  refine ⟨?_, ?_⟩
  · unfold Fl.val
    exact div_ne_zero hne (ne_of_gt hg)
  · have e1 : row.1.val - row.2.val = ((row.1.grid - row.2.grid : ℤ) : ℚ) / (gridScale : ℚ) := by
      unfold Fl.val
      push_cast
      ring
    have e2 : |row.2.val| = |(row.2.grid : ℚ)| / (gridScale : ℚ) := by
      unfold Fl.val
      rw [abs_div, abs_of_pos hg]
    rw [e1, e2, abs_div, abs_of_pos hg, div_lt_iff₀ (div_pos hb hg)]
    have h3 := div_lt_div_of_pos_right h2 hg
    rw [mul_div_assoc] at h3
    linarith

theorem drift_init :
    IterativePolynomialSampler.init id mainPolyDouble kXDouble kDxDouble
      = some (driftCheckpoint 0) := by
  decide!

set_option maxRecDepth 100000 in
theorem drift_chunk_0 :
    driftRun mainPolyDouble kXDouble kDxDouble 100 0 (driftCheckpoint 0)
      = some (driftCheckpoint 1) := by
  decide!

set_option maxRecDepth 100000 in
theorem drift_chunk_1 :
    driftRun mainPolyDouble kXDouble kDxDouble 100 100 (driftCheckpoint 1)
      = some (driftCheckpoint 2) := by
  decide!

set_option maxRecDepth 100000 in
theorem drift_chunk_2 :
    driftRun mainPolyDouble kXDouble kDxDouble 100 200 (driftCheckpoint 2)
      = some (driftCheckpoint 3) := by
  decide!

set_option maxRecDepth 100000 in
theorem drift_chunk_3 :
    driftRun mainPolyDouble kXDouble kDxDouble 100 300 (driftCheckpoint 3)
      = some (driftCheckpoint 4) := by
  decide!

set_option maxRecDepth 100000 in
theorem drift_chunk_4 :
    driftRun mainPolyDouble kXDouble kDxDouble 100 400 (driftCheckpoint 4)
      = some (driftCheckpoint 5) := by
  decide!

set_option maxRecDepth 100000 in
theorem drift_chunk_5 :
    driftRun mainPolyDouble kXDouble kDxDouble 100 500 (driftCheckpoint 5)
      = some (driftCheckpoint 6) := by
  decide!

set_option maxRecDepth 100000 in
theorem drift_chunk_6 :
    driftRun mainPolyDouble kXDouble kDxDouble 100 600 (driftCheckpoint 6)
      = some (driftCheckpoint 7) := by
  decide!

set_option maxRecDepth 100000 in
theorem drift_chunk_7 :
    driftRun mainPolyDouble kXDouble kDxDouble 100 700 (driftCheckpoint 7)
      = some (driftCheckpoint 8) := by
  decide!

set_option maxRecDepth 100000 in
theorem drift_chunk_8 :
    driftRun mainPolyDouble kXDouble kDxDouble 100 800 (driftCheckpoint 8)
      = some (driftCheckpoint 9) := by
  decide!

set_option maxRecDepth 100000 in
theorem drift_chunk_9 :
    driftRun mainPolyDouble kXDouble kDxDouble 100 900 (driftCheckpoint 9)
      = some (driftCheckpoint 10) := by
  decide!

theorem driftRun_step {N : ℕ} (p : Polynomial N (Fl 53)) (kX kDx : Fl 53) (a b i j : ℕ)
    (s s1 : IterativePolynomialSampler N (Fl 53)) (h : driftRun p kX kDx a i s = some s1)
    (hj : j = i + a) : driftRun p kX kDx (a + b) i s = driftRun p kX kDx b j s1 := by
  subst hj
  rw [driftRun_add, h]
  rfl

theorem drift_all :
    driftRun mainPolyDouble kXDouble kDxDouble 1000 0 (driftCheckpoint 0)
      = some (driftCheckpoint 10) := by
  exact ((driftRun_step _ _ _ 100 900 0 100 _ _ drift_chunk_0 rfl)).trans <|
    ((driftRun_step _ _ _ 100 800 100 200 _ _ drift_chunk_1 rfl)).trans <|
    ((driftRun_step _ _ _ 100 700 200 300 _ _ drift_chunk_2 rfl)).trans <|
    ((driftRun_step _ _ _ 100 600 300 400 _ _ drift_chunk_3 rfl)).trans <|
    ((driftRun_step _ _ _ 100 500 400 500 _ _ drift_chunk_4 rfl)).trans <|
    ((driftRun_step _ _ _ 100 400 500 600 _ _ drift_chunk_5 rfl)).trans <|
    ((driftRun_step _ _ _ 100 300 600 700 _ _ drift_chunk_6 rfl)).trans <|
    ((driftRun_step _ _ _ 100 200 700 800 _ _ drift_chunk_7 rfl)).trans <|
    ((driftRun_step _ _ _ 100 100 800 900 _ _ drift_chunk_8 rfl)).trans <|
    drift_chunk_9

/-- C12. Bounded drift with a double-precision runtime type: in the scenario of `main`
(`N = 3`, coefficients `-7, 10, -0.8, 0.01`, `x = 3`, `dx = 0.1`, all as `double`s) with
`double` registers, construction and the first 1000 passes of the sampling loop succeed,
and in each pass the relative error between the sample returned by `Next()` and the
directly evaluated `p (kX + i * kDx)` is under 0.01 percent; the registers after the last
pass are those of `driftCheckpoint 10` (last sample `7579474366596735 / 2 ^ 41`, about
`3446.745889`). -/
theorem main_drift_bounded :
    ∃ s0 rows s1,
      IterativePolynomialSampler.init id mainPolyDouble kXDouble kDxDouble = some s0
      ∧ mainLoop mainPolyDouble kXDouble kDxDouble 1000 0 s0 = some (rows, s1)
      ∧ rows.length = 1000
      ∧ (∀ row, row ∈ rows →
          row.2.val ≠ 0 ∧ 100 * |row.1.val - row.2.val| / |row.2.val| < 1 / 100)
      ∧ s1 = driftCheckpoint 10 := by
  obtain ⟨rows, hrows, hlen, hall⟩ :=
    driftRun_rows mainPolyDouble kXDouble kDxDouble 1000 0 _ _ drift_all
  exact ⟨_, rows, _, drift_init, hrows, hlen,
    fun row hr => withinDrift_relative row (hall row hr), rfl⟩

/-! ## Rounding registers and lossy narrowing -/

theorem gridScale_pos : (0 : ℚ) < (gridScale : ℚ) := by
  unfold gridScale
  positivity

theorem Fl.val_eq_iff {p : ℕ} (a : Fl p) (z : ℤ) :
    a.val = (z : ℚ) / (gridScale : ℚ) ↔ a.grid = z := by
  unfold Fl.val
  rw [div_left_inj' (ne_of_gt gridScale_pos)]
  exact Int.cast_inj

theorem nextCalls_single {Rg : Type} [Add Rg] (v : Rg) (m : ℕ) :
    IterativePolynomialSampler.nextCalls m (⟨[v]⟩ : IterativePolynomialSampler 0 Rg)
      = some (List.replicate m v, ⟨[v]⟩) := by
  induction m with
  | zero => rfl
  | succ m ih =>
    have hn : IterativePolynomialSampler.Next (⟨[v]⟩ : IterativePolynomialSampler 0 Rg)
        = some (v, ⟨[v]⟩) := rfl
    simp only [IterativePolynomialSampler.nextCalls, hn, ih, Option.bind_eq_bind,
      Option.some_bind, List.replicate_succ]
    rfl

/-- C6, as worded, fails on the shipped number types: with `double` setup numbers and
`float` registers the constant polynomial `0.1` makes `Next()` return the `float` nearest
to the `double` `0.1`, which is not that `double`. -/
theorem degree_zero_float_differs :
    ¬ ∃ samples s,
      (IterativePolynomialSampler.init (Fl.convert : Fl 53 → Fl 24)
          (⟨[kDxDouble]⟩ : Polynomial 0 (Fl 53)) kXDouble kDxDouble).bind
        (IterativePolynomialSampler.nextCalls 1) = some (samples, s)
      ∧ ∀ v, v ∈ samples → v.val = kDxDouble.val := by
  rintro ⟨samples, s, hrun, h⟩
  have hcode : (IterativePolynomialSampler.init (Fl.convert : Fl 53 → Fl 24)
      (⟨[kDxDouble]⟩ : Polynomial 0 (Fl 53)) kXDouble kDxDouble).bind
      (IterativePolynomialSampler.nextCalls 1)
      = some ([Fl.convert kDxDouble], ⟨[Fl.convert kDxDouble]⟩) := rfl
  rw [hcode] at hrun
  simp only [Option.some.injEq, Prod.mk.injEq] at hrun
  obtain ⟨hs, _⟩ := hrun
  subst hs
  have hv := h (Fl.convert kDxDouble) (by simp)
  have hg : (Fl.convert kDxDouble : Fl 24).grid = kDxDouble.grid :=
    (Fl.val_eq_iff _ _).mp hv
  revert hg
  decide!

/-- C6, amended. Degree-0 boundary: for `N = 0`, any number types, any narrowing
conversion, any constant `c0` and any `x` and `dx`, construction succeeds, each of any
number `m` of calls of `Next()` returns exactly the converted constant `narrow c0` (`c0`
itself when the conversion is the identity), and the single register still holds it. -/
theorem degree_zero_returns_converted_constant {P Rg : Type} [Add P] [Sub P] [Mul P]
    [Pow P ℕ] [IntCast P] [Zero P] [Zero Rg] [Add Rg] (narrow : P → Rg) (c0 x dx : P)
    (m : ℕ) :
    (IterativePolynomialSampler.init narrow (⟨[c0]⟩ : Polynomial 0 P) x dx).bind
        (IterativePolynomialSampler.nextCalls m)
      = some (List.replicate m (narrow c0), ⟨[narrow c0]⟩) := by
  have hinit : IterativePolynomialSampler.init narrow (⟨[c0]⟩ : Polynomial 0 P) x dx
      = some ⟨[narrow c0]⟩ := rfl
  rw [hinit, Option.some_bind, nextCalls_single]

theorem psum_eq_sumUpTo {Rg : Type} [Add Rg] (r : ℕ → Rg) (hcomm : ∀ a b : Rg, a + b = b + a)
    (k : ℕ) : psum r k = sumUpTo r k := by
  induction k with
  | zero => rfl
  | succ k ih => rw [psum, sumUpTo, ih, hcomm]

/-- C14, as worded, fails on `float` registers: from the registers `1` and `2 ^ 24`, one
`Next()` returns `2 ^ 24`, not the sum `2 ^ 24 + 1` of the old registers. -/
theorem float_next_not_exact_sum :
    ¬ ∃ v s1,
      IterativePolynomialSampler.Next
          (⟨[Fl.ofRat 24 1, Fl.ofRat 24 16777216]⟩ : IterativePolynomialSampler 1 (Fl 24))
        = some (v, s1)
      ∧ (∀ k, k ≤ 1 → (s1.registers_[k]?).map Fl.val
          = some (∑ j in Finset.range (k + 1),
              (([Fl.ofRat 24 1, Fl.ofRat 24 16777216] : List (Fl 24)).getD j 0).val))
      ∧ v.val = ∑ j in Finset.range (1 + 1),
          (([Fl.ofRat 24 1, Fl.ofRat 24 16777216] : List (Fl 24)).getD j 0).val := by
  rintro ⟨v, s1, hrun, _, hv⟩
  have hcode : IterativePolynomialSampler.Next
      (⟨[Fl.ofRat 24 1, Fl.ofRat 24 16777216]⟩ : IterativePolynomialSampler 1 (Fl 24))
      = some (Fl.ofRat 24 16777216, ⟨[Fl.ofRat 24 1, Fl.ofRat 24 16777216]⟩) := by
    decide!
  rw [hcode] at hrun
  simp only [Option.some.injEq, Prod.mk.injEq] at hrun
  obtain ⟨hv1, _⟩ := hrun
  subst hv1
  have hsum : ∑ j in Finset.range (1 + 1),
      (([Fl.ofRat 24 1, Fl.ofRat 24 16777216] : List (Fl 24)).getD j 0).val
      = (((Fl.ofRat 24 1).grid + (Fl.ofRat 24 16777216).grid : ℤ) : ℚ) / (gridScale : ℚ) := by
    simp only [Finset.sum_range_succ, Finset.range_zero, Finset.sum_empty, zero_add]
    simp only [List.getD_cons_zero, List.getD_cons_succ, Fl.val]
    push_cast
    ring
  rw [hsum, Fl.val_eq_iff] at hv
  revert hv
  decide!

/-- C14, amended. One `Next()` step is a running sum in the register type's own addition:
from any registers `r 0, ..., r N` of any type with an addition, one call succeeds,
afterwards register `k ≤ N` holds `r k + (r (k - 1) + (... + r 0))` (`psum`), and the
returned value is the new register `N`; when the addition is commutative this is
`r 0 + r 1 + ... + r k` summed left to right in that addition. -/
theorem next_is_running_sum_of_register_addition {Rg : Type} [Add Rg] (N : ℕ) (r : ℕ → Rg) :
    ∃ v s1,
      IterativePolynomialSampler.Next
          (⟨(List.range (N + 1)).map r⟩ : IterativePolynomialSampler N Rg) = some (v, s1)
      ∧ s1.registers_.length = N + 1
      ∧ (∀ k, k ≤ N → s1.registers_[k]? = some (psum r k))
      ∧ s1.registers_[N]? = some v
      ∧ v = psum r N
      ∧ ((∀ a b : Rg, a + b = b + a) → ∀ k, psum r k = sumUpTo r k) := by
  refine ⟨_, _, next_eq N r, table_length N _, ?_, ?_, rfl, fun hcomm k => psum_eq_sumUpTo r hcomm k⟩
  · intro k hk
    exact table_get N _ k hk
  · exact table_get N _ N (le_refl N)

/-- C15, as worded, fails on `double` registers: from the registers `0.1` and `0`, ten
calls of `Next()` leave `9007199254740991 / 2 ^ 53` in register 1, where the closed form
`C (10, 1) * 0.1 + C (9, 0) * 0` is ten times the `double` `0.1`. -/
theorem float_closed_form_fails :
    ¬ ∃ samples s1,
      IterativePolynomialSampler.nextCalls 10
          (⟨[kDxDouble, 0]⟩ : IterativePolynomialSampler 1 (Fl 53)) = some (samples, s1)
      ∧ ∀ k, k ≤ 1 → (s1.registers_[k]?).map Fl.val
          = some (∑ j in Finset.range (k + 1), ((10 + k - j - 1).choose (k - j) : ℚ)
              * (([kDxDouble, 0] : List (Fl 53)).getD j 0).val) := by
  rintro ⟨samples, s1, hrun, h⟩
  have hcode : (IterativePolynomialSampler.nextCalls 10
      (⟨[kDxDouble, 0]⟩ : IterativePolynomialSampler 1 (Fl 53))).map (fun r => r.2.registers_)
      = some [kDxDouble, ⟨9007199254740991 * 2 ^ 1021⟩] := by
    decide!
  rw [hrun] at hcode
  simp only [Option.map_some', Option.some.injEq] at hcode
  have h1 := h 1 (le_refl 1)
  rw [hcode] at h1
  have hsum : ∑ j in Finset.range (1 + 1), ((10 + 1 - j - 1).choose (1 - j) : ℚ)
      * (([kDxDouble, 0] : List (Fl 53)).getD j 0).val
      = ((10 * kDxDouble.grid : ℤ) : ℚ) / (gridScale : ℚ) := by
    simp only [Finset.sum_range_succ, Finset.range_zero, Finset.sum_empty, zero_add]
    simp only [List.getD_cons_zero, List.getD_cons_succ, Fl.val]
    have e1 : (10 + 1 - 0 - 1).choose (1 - 0) = 10 := by decide
    have e2 : (10 + 1 - 1 - 1).choose (1 - 1) = 1 := by decide
    have e3 : (0 : Fl 53).grid = 0 := rfl
    rw [e1, e2, e3]
    push_cast
    ring
  have h2 : ((⟨9007199254740991 * 2 ^ 1021⟩ : Fl 53)).val
      = ((10 * kDxDouble.grid : ℤ) : ℚ) / (gridScale : ℚ) := by
    rw [← hsum]
    simp only [List.getElem?_cons_succ, List.getElem?_cons_zero, Option.map_some',
      Option.some.injEq] at h1
    exact h1
  rw [Fl.val_eq_iff] at h2
  revert h2
  decide!

/-! ## The zero step in any arithmetic -/

/-- Instance of C1 on the polynomial of `main`, second call. -/
theorem sample_sequence_exact_witness :
    mainPoly.coefficients_.length = 3 + 1 ∧ 1 ≤ 2 ∧
    ∃ s0 earlier s1 v s2,
      IterativePolynomialSampler.init id mainPoly kX kDx = some s0
      ∧ IterativePolynomialSampler.nextCalls (2 - 1) s0 = some (earlier, s1)
      ∧ IterativePolynomialSampler.Next s1 = some (v, s2)
      ∧ mainPoly.evaluate (kX + (((2 : ℕ) : ℚ) - 1) * kDx) = some v :=
  ⟨rfl, by decide, sample_sequence_exact 3 mainPoly kX kDx 2 rfl (by decide)⟩

/-- Instance of C2 on the polynomial of `main`: register 0 starts as `3! * 0.01 * 0.1 ^ 3`. -/
theorem register_zero_after_init_witness :
    mainPoly.coefficients_.length = 3 + 1 ∧ mainPoly.coefficients_[3]? = some (1 / 100) ∧
    ∃ s, IterativePolynomialSampler.init id mainPoly kX kDx = some s
      ∧ s.registers_[0]? = some (((Nat.factorial 3 : ℕ) : ℚ) * (1 / 100) * kDx ^ 3) :=
  ⟨rfl, rfl, register_zero_after_init 3 mainPoly kX kDx (1 / 100) rfl rfl⟩

/-- Instance of C3 on the integer register file `[1, 2, 3]`, four calls. -/
theorem next_keeps_register_zero_witness :
    (⟨[1, 2, 3]⟩ : IterativePolynomialSampler 2 ℤ).registers_.length = 2 + 1 ∧
    ∃ samples s1,
      IterativePolynomialSampler.nextCalls 4 (⟨[1, 2, 3]⟩ : IterativePolynomialSampler 2 ℤ)
        = some (samples, s1)
      ∧ s1.registers_[0]? = (⟨[1, 2, 3]⟩ : IterativePolynomialSampler 2 ℤ).registers_[0]? :=
  ⟨rfl, next_keeps_register_zero 2 4 ⟨[1, 2, 3]⟩ rfl⟩

/-- Instance of C4 on the polynomial of `main` at `x = 3`. -/
theorem polynomial_call_is_referenceSum_witness :
    mainPoly.coefficients_.length = 3 + 1 ∧
    mainPoly.evaluate 3 = some (referenceSum 3 mainPoly.coefficients_ 3) :=
  ⟨rfl, polynomial_call_is_referenceSum 3 mainPoly 3 rfl⟩

/-- Instance of the amended C5 on the polynomial of `main`, after two calls. -/
theorem register_holds_complementary_order_witness :
    mainPoly.coefficients_.length = 3 + 1 ∧
    ∃ samples s,
      (IterativePolynomialSampler.init id mainPoly kX kDx).bind
          (IterativePolynomialSampler.nextCalls 2) = some (samples, s)
      ∧ ∀ k, k ≤ 3 →
          s.registers_[k]?
            = some (fdiff (windowValue 3 mainPoly.coefficients_ kX kDx 2) (3 - k) k) :=
  ⟨rfl, register_holds_complementary_order 3 mainPoly kX kDx 2 rfl⟩

/-- Instance of C9 on the integer register file `[1, 2, 3]`: one call, then two more. -/
theorem step_count_invariance_witness :
    (⟨[1, 2, 3]⟩ : IterativePolynomialSampler 2 ℤ).registers_.length = 2 + 1 ∧
    ∃ a s1 b s2,
      IterativePolynomialSampler.nextCalls 1 (⟨[1, 2, 3]⟩ : IterativePolynomialSampler 2 ℤ)
        = some (a, s1)
      ∧ IterativePolynomialSampler.nextCalls 2 s1 = some (b, s2)
      ∧ IterativePolynomialSampler.nextCalls (1 + 2)
          (⟨[1, 2, 3]⟩ : IterativePolynomialSampler 2 ℤ) = some (a ++ b, s2) :=
  ⟨rfl, step_count_invariance 2 1 2 ⟨[1, 2, 3]⟩ rfl⟩

/-- Instance of C13 on the polynomial of `main`, after two calls. -/
theorem difference_table_invariant_witness :
    mainPoly.coefficients_.length = 3 + 1 ∧
    ((∀ i : ℕ, mainPoly.evaluate (kX + (((i : ℤ) - ((3 : ℕ) : ℤ) - 1 : ℤ) : ℚ) * kDx)
        = some (startValue 3 mainPoly.coefficients_ kX kDx i))
    ∧ ∃ samples s,
        (IterativePolynomialSampler.init id mainPoly kX kDx).bind
          (IterativePolynomialSampler.nextCalls 2) = some (samples, s)
        ∧ (∀ j, j ≤ 3 → s.registers_[j]?
            = some (fdiff (startValue 3 mainPoly.coefficients_ kX kDx) (3 - j) (j + 2)))
        ∧ s.registers_[3]? = some (startValue 3 mainPoly.coefficients_ kX kDx (3 + 2))
        ∧ s.registers_[0]? = some (fdiff (startValue 3 mainPoly.coefficients_ kX kDx) 3 2)) :=
  ⟨rfl, difference_table_invariant 3 mainPoly kX kDx 2 rfl⟩

/-- Instance of C15 on the integer register file `[1, 2, 3]`, three calls. -/
theorem closed_form_of_m_steps_witness :
    (⟨[1, 2, 3]⟩ : IterativePolynomialSampler 2 ℤ).registers_.length = 2 + 1 ∧ 1 ≤ 3 ∧
    ∃ samples s1,
      IterativePolynomialSampler.nextCalls 3 (⟨[1, 2, 3]⟩ : IterativePolynomialSampler 2 ℤ)
        = some (samples, s1)
      ∧ (∀ k, k ≤ 2 → s1.registers_[k]?
          = some (∑ j in Finset.range (k + 1), (((3 + k - j - 1).choose (k - j) : ℕ) : ℤ)
              * (⟨[1, 2, 3]⟩ : IterativePolynomialSampler 2 ℤ).registers_.getD j 0))
      ∧ samples[3 - 1]?
          = some (∑ j in Finset.range (2 + 1), (((3 + 2 - j - 1).choose (2 - j) : ℕ) : ℤ)
              * (⟨[1, 2, 3]⟩ : IterativePolynomialSampler 2 ℤ).registers_.getD j 0) :=
  ⟨rfl, by decide, closed_form_of_m_steps 2 3 ⟨[1, 2, 3]⟩ rfl (by decide)⟩

/-- Instance of C16 on the polynomial of `main`, two calls. -/
theorem shift_invariance_witness :
    mainPoly.coefficients_.length = 3 + 1 ∧
    ∃ samples s,
      (IterativePolynomialSampler.init id mainPoly kX kDx).bind
          (IterativePolynomialSampler.nextCalls 2) = some (samples, s)
      ∧ IterativePolynomialSampler.init id mainPoly (kX + ((2 : ℕ) : ℚ) * kDx) kDx = some s :=
  ⟨rfl, shift_invariance 3 mainPoly kX kDx 2 rfl⟩

/-- Instance of C17: the linear polynomial `1 + 2 x` held as a degree-3 polynomial
(`d = 1`, `N = 3`), after five calls. -/
theorem low_registers_stay_zero_witness :
    (⟨[1, 2, 0, 0]⟩ : Polynomial 3 ℤ).coefficients_.length = 3 + 1 ∧
    (∀ i, 1 < i → i ≤ 3 → (⟨[1, 2, 0, 0]⟩ : Polynomial 3 ℤ).coefficients_[i]? = some 0) ∧
    ∃ samples s,
      (IterativePolynomialSampler.init id (⟨[1, 2, 0, 0]⟩ : Polynomial 3 ℤ) 4 7).bind
          (IterativePolynomialSampler.nextCalls 5) = some (samples, s)
      ∧ ∀ j, j + 1 < 3 → s.registers_[j]? = some 0 :=
  ⟨rfl, fun i h1 h2 => by interval_cases i <;> rfl,
    low_registers_stay_zero 3 1 ⟨[1, 2, 0, 0]⟩ 4 7 5 rfl
      (fun i h1 h2 => by interval_cases i <;> rfl)⟩

/-- Instance of C18: `2 * p + 3 * 1` for the polynomial `p` of `main`, two calls. -/
theorem linearity_in_polynomial_witness :
    mainPoly.coefficients_.length = 3 + 1 ∧
    (⟨[1, 0, 0, 0]⟩ : Polynomial 3 ℚ).coefficients_.length = 3 + 1 ∧
    ∃ outc sc outd sd,
      (IterativePolynomialSampler.init id mainPoly kX kDx).bind
          (IterativePolynomialSampler.nextCalls 2) = some (outc, sc)
      ∧ (IterativePolynomialSampler.init id (⟨[1, 0, 0, 0]⟩ : Polynomial 3 ℚ) kX kDx).bind
          (IterativePolynomialSampler.nextCalls 2) = some (outd, sd)
      ∧ (IterativePolynomialSampler.init id
            (⟨combine 2 3 mainPoly.coefficients_
                (⟨[1, 0, 0, 0]⟩ : Polynomial 3 ℚ).coefficients_⟩ : Polynomial 3 ℚ) kX kDx).bind
          (IterativePolynomialSampler.nextCalls 2)
        = some (combine 2 3 outc outd, ⟨combine 2 3 sc.registers_ sd.registers_⟩) :=
  ⟨rfl, rfl, linearity_in_polynomial 3 mainPoly ⟨[1, 0, 0, 0]⟩ 2 3 kX kDx 2 rfl rfl⟩

/-- Instance of the amended C19 on the polynomial of `main`. -/
theorem initial_fill_witness :
    mainPoly.coefficients_.length = 3 + 1 ∧
    ∃ hi, fillLoop mainPoly kX kDx (List.replicate (3 + 1) 0) = some hi
      ∧ hi.length = 3 + 1
      ∧ ∀ i : ℕ, i ≤ 3 →
          hi[i]? = mainPoly.evaluate (kX - (((3 : ℕ) : ℚ) + 1) * kDx + (i : ℚ) * kDx) :=
  ⟨rfl, initial_fill 3 mainPoly kX kDx rfl⟩

/-- Instance of the amended C14 on `float` registers `1` and `2 ^ 24`. -/
theorem next_is_running_sum_of_register_addition_witness :
    ∃ v s1,
      IterativePolynomialSampler.Next
          (⟨(List.range (1 + 1)).map
              (fun k => if k = 0 then Fl.ofRat 24 1 else Fl.ofRat 24 16777216)⟩ :
            IterativePolynomialSampler 1 (Fl 24)) = some (v, s1)
      ∧ s1.registers_.length = 1 + 1
      ∧ (∀ k, k ≤ 1 → s1.registers_[k]?
          = some (psum (fun k => if k = 0 then Fl.ofRat 24 1 else Fl.ofRat 24 16777216) k))
      ∧ s1.registers_[1]? = some v
      ∧ v = psum (fun k => if k = 0 then Fl.ofRat 24 1 else Fl.ofRat 24 16777216) 1
      ∧ ((∀ a b : Fl 24, a + b = b + a) → ∀ k,
          psum (fun k => if k = 0 then Fl.ofRat 24 1 else Fl.ofRat 24 16777216) k
            = sumUpTo (fun k => if k = 0 then Fl.ofRat 24 1 else Fl.ofRat 24 16777216) k) :=
  next_is_running_sum_of_register_addition 1
    (fun k => if k = 0 then Fl.ofRat 24 1 else Fl.ofRat 24 16777216)

end DifferenceEngine
